import Mathlib

/-!
Verification development for the `wsl-pathlib` repository
(`src/wsl_pathlib/path.py`).

The library converts between Windows drive-letter paths (`C:\foo\test.txt`)
and WSL mount paths (`/mnt/c/foo/test.txt`).  The Python class `WslPath`
subclasses the host-platform `pathlib` path class; the constructor replaces
backslashes, classifies the replaced string (`is_mnt` / `is_nt`) inside
`_normalize_path` — raising for anything else — and then derives cached
views in `_init_views` from `self.as_posix()`.  Crucially, the normalized
string that `_normalize_path` returns is dropped: `__init__` executes
`super().__init__(*new_args[1:], **kwargs)` with `new_args = (normalized,
*args[1:])`, so the parent receives `args[1:]` and never the normalized
path.  On the CPython versions where the library functions (`__new__` of
`pathlib` ≤ 3.11 parses the original constructor arguments and
`object.__init__` ignores extras), the instance's path state is therefore
the parse of the RAW input; `_normalize_path` contributes only its
classification gate.  This model embeds exactly that dataflow: `createOn`
checks the gate on the backslash-replaced string and then runs
`_init_views` on the host-flavour `as_posix()` of the raw input.  The two
accessor properties `wsl_path` / `win_path` lazily derive the missing view
(`_ensure_wsl_view` / `_ensure_win_view`), and `__truediv__` joins a
segment onto the parent's (raw-derived) path state and re-runs view
initialization on the child (pathlib's `/` returns an instance whose
`__init__` is not re-invoked; `ensure_attributes` then calls `_init_views`
because `drive_letter` is unset).

This file shallowly embeds that code over `Str := List Char` (a faithful model
of a Python `str` as a sequence of code points; `str.isalpha` / `.lower()` /
`.upper()` are modeled for the ASCII range, which is the range the library's
drive letters and path syntax use).  The `pathlib` machinery the class relies
on (`PurePosixPath` / `PureWindowsPath` parsing, rendering, `parts`, `/`) is
embedded by its documented semantics: components are split on separators,
empty and `.` components are dropped, later rooted or drive-carrying
components override earlier ones (`ntpath.join` semantics), and rendering
joins the parsed segments with the flavour separator.  UNC `\\server\share`
forms never arise in the flows below (every string handed to the Windows
parser starts with `<char>:`), so the model omits them.  Python exceptions
are modeled by `Except Str` carrying the exact message built by the source.
-/

namespace WslPathlib

/-- A Python `str`, modeled as its sequence of characters. -/
abbrev Str := List Char

/-- Python `s.replace('\\', '/')` as used on the raw constructor argument. -/
def replace_backslashes (s : Str) : Str :=
  s.map (fun c => if c = '\\' then '/' else c)

/-- Python `s.split(sep)` (no limit): splits at every separator, keeping
empty pieces; the empty string yields `[[]]`, like `''.split(sep) == ['']`. -/
def splitAllP (p : Char → Bool) : Str → List Str
  | [] => [[]]
  | c :: t =>
    if p c then [] :: splitAllP p t
    else
      match splitAllP p t with
      | [] => [[c]]
      | h :: r => (c :: h) :: r

/-- Python `s.split(sep, n)`: at most `n` splits, scanning left to right. -/
def pySplitN (sep : Char) : Nat → Str → List Str
  | _, [] => [[]]
  | 0, s => [s]
  | n + 1, c :: t =>
    if c = sep then [] :: pySplitN sep n t
    else
      match pySplitN sep (n + 1) t with
      | [] => [[c]]
      | h :: r => (c :: h) :: r

/-- Join pieces with a separator character (inverse of splitting). -/
def joinSep (sep : Char) : List Str → Str
  | [] => []
  | [a] => a
  | a :: rest => a ++ sep :: joinSep sep rest

/-- `pathlib` drops empty and `.` components when parsing. -/
def filterSegs (l : List Str) : List Str :=
  l.filter (fun t => !t.isEmpty && !(t = ['.'] : Bool))

/-- Parsed form of a `PurePosixPath`: number of root slashes rendered
(`posixpath` keeps exactly two leading slashes as a `//` root, any other
count collapses to `/`), plus the non-empty, non-`.` segments. -/
structure PosixParts where
  root : Nat
  segs : List Str
deriving DecidableEq

/-- Number of leading `/` characters. -/
def leadSlashes : Str → Nat
  | [] => 0
  | c :: t => if c = '/' then leadSlashes t + 1 else 0

/-- Root slashes of a POSIX path string: exactly two leading slashes keep a
double `//` root (POSIX-reserved), any other positive run collapses to `/`. -/
def rootCountOf (s : Str) : Nat :=
  if leadSlashes s = 2 then 2 else if 1 ≤ leadSlashes s then 1 else 0

/-- Segments of a POSIX path string (split on `/`, drop empty and `.`). -/
def posixSegsOf (s : Str) : List Str :=
  filterSegs (splitAllP (fun c => c = '/') s)

/-- `PurePosixPath(s)`. -/
def posixParse (s : Str) : PosixParts :=
  { root := rootCountOf s, segs := posixSegsOf s }

/-- `str()` of a `PurePosixPath` (an empty path renders as `.`). -/
def posixRender (p : PosixParts) : Str :=
  if p.root = 0 ∧ p.segs = [] then ['.']
  else List.replicate p.root '/' ++ joinSep '/' p.segs

/-- Appending one component to a parsed POSIX path: a rooted component
replaces the path (`posixpath.join` semantics), otherwise its segments are
appended. -/
def posixCombine (acc : PosixParts) (comp : Str) : PosixParts :=
  let p := posixParse comp
  if 1 ≤ p.root then p else { acc with segs := acc.segs ++ p.segs }

/-- `PurePosixPath(c₁, c₂, …)` for a non-empty component list. -/
def posixOfComps : List Str → PosixParts
  | [] => { root := 0, segs := [] }
  | c :: rest => rest.foldl posixCombine (posixParse c)

/-- The `parts` tuple of a `PurePosixPath`: the rendered root anchor (when
rooted) followed by the segments. -/
def posixPartsList (p : PosixParts) : List Str :=
  (if 1 ≤ p.root then [List.replicate p.root '/'] else []) ++ p.segs

/-- Parsed form of a `PureWindowsPath` (no UNC forms; see header): optional
two-character drive `<c>:`, optional root separator, and the segments. -/
structure WinParts where
  drive : Str
  root : Bool
  segs : List Str
deriving DecidableEq

/-- Windows path separators: `ntpath` accepts both `\` and `/`. -/
def isWinSep (c : Char) : Bool := c = '/' || c = '\\'

/-- Segments of the post-drive part of a Windows path string. -/
def winSegsOf (s : Str) : List Str :=
  filterSegs (splitAllP isWinSep s)

/-- `ntpath.splitroot` of a single component (no UNC forms): a drive is
present exactly when the second character is `:`; a root exactly when the
character after the drive is a separator. -/
def winSplitComp (s : Str) : WinParts :=
  match s with
  | a :: ':' :: t =>
    { drive := [a, ':'],
      root := match t with | c :: _ => isWinSep c | [] => false,
      segs := winSegsOf t }
  | _ =>
    { drive := [],
      root := match s with | c :: _ => isWinSep c | [] => false,
      segs := winSegsOf s }

/-- `PureWindowsPath(s)` for a single string. -/
def winParse (s : Str) : WinParts := winSplitComp s

/-- Python `str.lower()` on a string, ASCII range. -/
def lowerStr (s : Str) : Str := s.map Char.toLower

/-- One step of `ntpath.join`: a rooted component resets root and segments
(keeping the accumulated drive unless the component brings its own or none is
set); a component with a different drive (case-insensitively) discards
everything before it; otherwise segments accumulate. -/
def ntCombine (acc : WinParts) (comp : Str) : WinParts :=
  let p := winSplitComp comp
  if p.root then
    { drive := if p.drive ≠ [] ∨ acc.drive = [] then p.drive else acc.drive,
      root := true, segs := p.segs }
  else if p.drive ≠ [] ∧ lowerStr p.drive ≠ lowerStr acc.drive then p
  else if p.drive ≠ [] then { acc with drive := p.drive, segs := acc.segs ++ p.segs }
  else { acc with segs := acc.segs ++ p.segs }

/-- `PureWindowsPath(c₁, c₂, …)`. -/
def winOfComps : List Str → WinParts
  | [] => { drive := [], root := false, segs := [] }
  | c :: rest => rest.foldl ntCombine (winSplitComp c)

/-- `str()` of a `PureWindowsPath` (backslash-joined; empty renders `.`). -/
def winRender (w : WinParts) : Str :=
  if w.drive = [] ∧ w.root = false ∧ w.segs = [] then ['.']
  else w.drive ++ (if w.root then ['\\'] else []) ++ joinSep '\\' w.segs

/-- `PureWindowsPath.as_posix()` (slash-joined). -/
def winAsPosix (w : WinParts) : Str :=
  if w.drive = [] ∧ w.root = false ∧ w.segs = [] then ['.']
  else w.drive ++ (if w.root then ['/'] else []) ++ joinSep '/' w.segs

/-- The `parts` tuple of a `PureWindowsPath`: the anchor (drive plus root,
when either is present) followed by the segments. -/
def winPartsList (w : WinParts) : List Str :=
  (if w.drive ≠ [] ∨ w.root then [w.drive ++ (if w.root then ['\\'] else [])] else [])
    ++ w.segs

/-- `parts[1:]`, the relative parts used by `_ensure_wsl_view`. -/
def winPartsTail (w : WinParts) : List Str := (winPartsList w).drop 1

/-- The host platform, `os.name`: `'nt'` or `'posix'`. -/
inductive Os where
  | nt
  | posix
deriving DecidableEq

/-- `WslPath.is_mnt`: the string starts with `/mnt/`, and the third piece of
`path_in.split('/', 4)` is a single alphabetic character. -/
def is_mnt (s : Str) : Bool :=
  if !List.isPrefixOf ("/mnt/".toList) s then false
  else
    match (pySplitN '/' 4 s).drop 2 with
    | [] => false
    | d :: _ => d.length = 1 && d.all Char.isAlpha

/-- `WslPath.is_nt`: at least two characters, the first alphabetic and the
second a colon. -/
def is_nt (s : Str) : Bool :=
  match s with
  | a :: b :: _ => a.isAlpha && b = ':'
  | _ => false

/-- `_get_drive_letter(path_in, is_mnt=True)`: third piece of the limited
split, required to be a single alphabetic character, lowercased.  `none`
models the `ValueError`. -/
def get_drive_letter_mnt (s : Str) : Option Char :=
  match (pySplitN '/' 4 s).drop 2 with
  | [c] :: _ => if c.isAlpha then some c.toLower else none
  | _ => none

/-- `_get_drive_letter(path_in, is_mnt=False)`: first character lowercased
when `is_nt` holds; `none` models the `ValueError`. -/
def get_drive_letter_nt (s : Str) : Option Char :=
  if is_nt s then
    match s with
    | c :: _ => some c.toLower
    | [] => none
  else none

/-- Message of the `NotImplementedError` raised by `_normalize_path` (the
spec's `UnsupportedPathError`). -/
def msg_unsupported : Str :=
  ("Unsupported path. Only drive-letter Windows paths and ").toList
    ++ Char.ofNat 39 :: ("/mnt/<drive>/").toList ++ Char.ofNat 39 ::
    (" WSL paths are supported.").toList

/-- Message of the `NotImplementedError` raised by `_init_views`. -/
def msg_init_views : Str :=
  ("Only ").toList ++ Char.ofNat 39 :: ("/mnt/<drive>/").toList
    ++ Char.ofNat 39 :: (" and ").toList ++ Char.ofNat 39 :: ("X:/").toList
    ++ Char.ofNat 39 :: (" drive paths are supported.").toList

/-- Message of the `NotImplementedError` raised by `_ensure_win_view` for a
POSIX view not under `/mnt/<drive>/`. -/
def msg_not_under_mnt : Str :=
  ("Cannot convert POSIX path not under ").toList ++ Char.ofNat 39 ::
    ("/mnt/<drive>/").toList ++ Char.ofNat 39 :: (" to Windows.").toList

/-- Message of the `NotImplementedError` raised by `_raise_unsupported`. -/
def msg_cannot_derive : Str :=
  ("Cannot derive views from an unsupported path.").toList

/-- `ValueError` message for an invalid `/mnt/` path. -/
def msg_val_mnt : Str :=
  ("Invalid /mnt/ path: cannot derive drive letter.").toList

/-- `ValueError` message for an invalid Windows path. -/
def msg_val_win : Str :=
  ("Invalid Windows path: cannot derive drive letter.").toList

/-- `RuntimeError` message of the `wsl_path` property guard. -/
def msg_rt_wsl : Str := ("Failed to initialize WSL path view").toList

/-- `RuntimeError` message of the `win_path` property guard. -/
def msg_rt_win : Str := ("Failed to initialize Windows path view").toList

/-- `_normalize_path(raw_str)`: classify the backslash-normalized string and
rewrite it into the host platform's native form. -/
def normalize_path (os : Os) (raw : Str) : Except Str Str :=
  if is_mnt raw then
    if os = Os.posix then .ok raw
    else
      match get_drive_letter_mnt raw with
      | some d => .ok (d.toUpper :: ':' :: raw.drop 7)
      | none => .error msg_val_mnt
  else if is_nt raw then
    if os = Os.nt then .ok raw
    else
      match get_drive_letter_nt raw with
      | some d => .ok (("/mnt/").toList ++ d :: raw.drop 2)
      | none => .error msg_val_win
  else .error msg_unsupported

/-- Instance state of a `WslPath` object: the parent path's `as_posix()`
string, the two lazily cached views (`_wsl_path` / `_win_path`), and the
`drive_letter` attribute (always set by `_init_views` before an instance is
returned, hence a plain `Char` here; `ensure_attributes` is a no-op on every
state this model constructs, since `drive_letter` is never empty). -/
structure WState where
  pathStr : Str
  wslView : Option PosixParts
  winView : Option WinParts
  drive_letter : Char
deriving DecidableEq

/-- `as_posix()` of the parent path holding `normalized`, per host flavour. -/
def host_as_posix (os : Os) (normalized : Str) : Str :=
  match os with
  | Os.posix => posixRender (posixParse normalized)
  | Os.nt => winAsPosix (winParse normalized)

/-- `_init_views`: classify the current `as_posix()` string, store the
matching view and the drive letter, or raise. -/
def init_views (pathStr : Str) : Except Str WState :=
  if is_nt pathStr then
    match get_drive_letter_nt pathStr with
    | some d =>
      .ok { pathStr := pathStr, wslView := none,
            winView := some (winParse pathStr), drive_letter := d }
    | none => .error msg_val_win
  else if is_mnt pathStr then
    match get_drive_letter_mnt pathStr with
    | some d =>
      .ok { pathStr := pathStr, wslView := some (posixParse pathStr),
            winView := none, drive_letter := d }
    | none => .error msg_val_mnt
  else .error msg_init_views

/-- `WslPath(input)` on host `os`: the backslash-replaced string passes
through `_normalize_path` (whose raise is the only effect — the returned
normalized string is dropped by `super().__init__(*new_args[1:])`), and
`_init_views` then classifies `self.as_posix()` of the parent built from the
RAW input. -/
def createOn (os : Os) (s : Str) : Except Str WState :=
  (normalize_path os (replace_backslashes s)).bind fun _ =>
    init_views (host_as_posix os s)

/-- `_ensure_views_from_self`: re-classify the current path string and fill
in the corresponding view and drive letter (other attributes untouched). -/
def ensure_views_from_self (st : WState) : Except Str WState :=
  if is_nt st.pathStr then
    match get_drive_letter_nt st.pathStr with
    | some d =>
      .ok { st with winView := some (winParse st.pathStr), drive_letter := d }
    | none => .error msg_val_win
  else if is_mnt st.pathStr then
    match get_drive_letter_mnt st.pathStr with
    | some d =>
      .ok { st with wslView := some (posixParse st.pathStr), drive_letter := d }
    | none => .error msg_val_mnt
  else .error msg_cannot_derive

/-- `_ensure_wsl_view`: if absent, derive the WSL view from the Windows view
as `PurePosixPath('/mnt', drive_letter, *win.parts[1:])`. -/
def ensure_wsl_view (st : WState) : Except Str WState :=
  if st.wslView.isSome then .ok st
  else
    (if st.winView.isNone then ensure_views_from_self st else .ok st).bind
      fun st1 =>
        match st1.winView with
        | some w =>
          let v := posixOfComps (("/mnt").toList :: [st1.drive_letter]
                     :: winPartsTail w)
          .ok { st1 with wslView := some v }
        | none => .ok st1

/-- `_ensure_win_view`: if absent, check the POSIX view lies under
`/mnt/<drive>/` and derive
`PureWindowsPath(f'{drive.upper()}:\\', *parts[3:])`. -/
def ensure_win_view (st : WState) : Except Str WState :=
  if st.winView.isSome then .ok st
  else
    (if st.wslView.isNone then ensure_views_from_self st else .ok st).bind
      fun st1 =>
        match st1.wslView with
        | some v =>
          let parts := posixPartsList v
          if parts.length < 3 ∨ ¬(parts.getD 1 [] = ("mnt").toList) then
            .error msg_not_under_mnt
          else
            let w := winOfComps ((st1.drive_letter.toUpper :: (":\\").toList)
                       :: parts.drop 3)
            .ok { st1 with winView := some w }
        | none => .ok st1

/-- The `wsl_path` property: ensure the view, return its string form (the
`RuntimeError` guard fires when the view is still missing). -/
def wsl_path (st : WState) : Except Str (Str × WState) :=
  (ensure_wsl_view st).bind fun st1 =>
    match st1.wslView with
    | some v => .ok (posixRender v, st1)
    | none => .error msg_rt_wsl

/-- The `win_path` property. -/
def win_path (st : WState) : Except Str (Str × WState) :=
  (ensure_win_view st).bind fun st1 =>
    match st1.winView with
    | some w => .ok (winRender w, st1)
    | none => .error msg_rt_win

/-- `__truediv__` on the POSIX host (the claims exercise joining there): the
parent path joined with the segment under POSIX `pathlib` semantics, then the
fresh child instance runs `ensure_attributes` → `_init_views`. -/
def truediv (st : WState) (seg : Str) : Except Str WState :=
  init_views (posixRender (posixCombine (posixParse st.pathStr) seg))

/-- Composite observable: string returned by `WslPath(s).wsl_path`. -/
def wslOutput (os : Os) (s : Str) : Except Str Str :=
  (createOn os s).bind fun st => (wsl_path st).map Prod.fst

/-- Composite observable: string returned by `WslPath(s).win_path`. -/
def winOutput (os : Os) (s : Str) : Except Str Str :=
  (createOn os s).bind fun st => (win_path st).map Prod.fst

/-- Composite observable: `(WslPath(s) / seg).wsl_path` on the POSIX host. -/
def joinWslOutput (s seg : Str) : Except Str Str :=
  (createOn Os.posix s).bind fun st =>
    (truediv st seg).bind fun st2 => (wsl_path st2).map Prod.fst

/-- Composite observable: `(WslPath(s) / seg).win_path` on the POSIX host. -/
def joinWinOutput (s seg : Str) : Except Str Str :=
  (createOn Os.posix s).bind fun st =>
    (truediv st seg).bind fun st2 => (win_path st2).map Prod.fst

/-- `Except` success as a Bool. -/
def isOkE {α : Type} : Except Str α → Bool
  | .ok _ => true
  | .error _ => false

/-- Decidable equality for `Except`, so concrete runs can be checked. -/
instance {ε α : Type} [DecidableEq ε] [DecidableEq α] : DecidableEq (Except ε α) :=
  fun a b =>
    match a, b with
    | .error e, .error f =>
      if h : e = f then isTrue (by rw [h]) else
        isFalse (fun hc => h (Except.error.inj hc))
    | .error _, .ok _ => isFalse (fun hc => Except.noConfusion hc)
    | .ok _, .error _ => isFalse (fun hc => Except.noConfusion hc)
    | .ok x, .ok y =>
      if h : x = y then isTrue (by rw [h]) else
        isFalse (fun hc => h (Except.ok.inj hc))

/-- A segment can reset the drive of a derived `PureWindowsPath` exactly when
its second character is a colon (`ntpath` treats `x:…` as drive-carrying). -/
def secondIsColon (t : Str) : Bool :=
  match t with
  | _ :: b :: _ => b = ':'
  | _ => false

/-- A plain path segment: non-empty, not `.`, and free of `/`, `\` and `:`. -/
def plainSeg (t : Str) : Prop :=
  t ≠ [] ∧ t ≠ ['.'] ∧ ∀ c ∈ t, c ≠ '/' ∧ c ≠ '\\' ∧ c ≠ ':'

instance (t : Str) : Decidable (plainSeg t) := by
  unfold plainSeg
  infer_instance

/-- A well-formed POSIX segment as produced by parsing. -/
def goodSeg (t : Str) : Prop :=
  t ≠ [] ∧ t ≠ ['.'] ∧ ∀ c ∈ t, c ≠ '/'

/-- All reachable instances on the POSIX host: fresh from the constructor,
from `/` joins, and from accessor calls (which cache derived views). -/
inductive Reachable : WState → Prop where
  | create (s : Str) (stt : WState) : createOn Os.posix s = .ok stt → Reachable stt
  | join (st : WState) (seg : Str) (st2 : WState) :
      Reachable st → truediv st seg = .ok st2 → Reachable st2
  | accWsl (st : WState) (v : Str) (st2 : WState) :
      Reachable st → wsl_path st = .ok (v, st2) → Reachable st2
  | accWin (st : WState) (v : Str) (st2 : WState) :
      Reachable st → win_path st = .ok (v, st2) → Reachable st2

/-- All segments are well-formed POSIX segments. -/
def goodSegs (S : List Str) : Prop := ∀ t ∈ S, goodSeg t

/-- The canonical mount-form string `/mnt/<l>[/seg…]` (the render of the
POSIX view `('/', 'mnt', l, seg…)`). -/
def mountStr (l : Char) (S : List Str) : Str :=
  posixRender { root := 1, segs := ("mnt").toList :: [l] :: S }

/-- State of a freshly constructed instance on the POSIX host: path string in
canonical mount form, WSL view cached, Windows view not yet derived. -/
def mkMState (l : Char) (S : List Str) : WState :=
  { pathStr := mountStr l S,
    wslView := some { root := 1, segs := ("mnt").toList :: [l] :: S },
    winView := none,
    drive_letter := l.toLower }

/-- The same state after `win_path` has derived and cached the Windows view
(`PureWindowsPath(f'{drive.upper()}:\\', *parts[3:])`). -/
def mkFState (l : Char) (S : List Str) : WState :=
  { mkMState l S with
      winView := some (winOfComps ((l.toLower.toUpper :: (":\\").toList) :: S)) }

/-- State produced by `_init_views` when `as_posix()` classifies as a
Windows-drive path: the Windows view is `PureWindowsPath` of the as_posix
string itself, the WSL view is absent. -/
def ntStateOf (p : Str) : WState :=
  { pathStr := p,
    wslView := none,
    winView := some (winParse p),
    drive_letter := (p.getD 0 ' ').toLower }

/-- State produced by `_init_views` when `as_posix()` classifies as a WSL
mount path: the WSL view is `PurePosixPath` of the as_posix string itself,
the Windows view is absent. -/
def mntStateOf (p : Str) : WState :=
  { pathStr := p,
    wslView := some (posixParse p),
    winView := none,
    drive_letter := (p.getD 5 ' ').toLower }

/-- The POSIX-host `as_posix()` string of a Windows-classified instance:
the segments of the parent's POSIX parse joined with `/`, the first
segment carrying the `a:` drive prefix. -/
def pN (a : Char) (h : Str) (F : List Str) : Str :=
  joinSep '/' ((a :: ':' :: h) :: F)

/-- The part of `pN a h F` after the drive prefix `a:`. -/
def ntTail (h : Str) (F : List Str) : Str :=
  h ++ (if F = [] then [] else '/' :: joinSep '/' F)

/-- A Windows-classified state after `wsl_path` has derived and cached the
WSL view (`PurePosixPath('/mnt', drive_letter, *win.parts[1:])`). -/
def ntCachedOf (a : Char) (h : Str) (F : List Str) : WState :=
  let v : PosixParts :=
    ⟨1, ("mnt").toList :: [a.toLower] :: winSegsOf (ntTail h F)⟩
  { ntStateOf (pN a h F) with wslView := some v }

/-- Canonical form of reachable POSIX-host states: mount-classified
(`mkMState`/`mkFState`) or Windows-classified (`ntStateOf`/`ntCachedOf` over
a canonical rendered path). -/
def Canon (st : WState) : Prop :=
  (∃ l S, l.isAlpha = true ∧ goodSegs S ∧ (st = mkMState l S ∨ st = mkFState l S)) ∨
  (∃ a h F, a.isAlpha = true ∧ (∀ c ∈ h, c ≠ '/') ∧ goodSegs F ∧
    (st = ntStateOf (pN a h F) ∨ st = ntCachedOf a h F))

/-! ### Character facts (ASCII case mapping, as `str.lower`/`str.upper`) -/

theorem ule_iff (a b : UInt32) : a ≤ b ↔ a.toNat ≤ b.toNat := ⟨fun h => h, fun h => h⟩

theorem charToNat_ofNat (n : Nat) (h : n < 55296) : (Char.ofNat n).toNat = n := by
  have hv : Nat.isValidChar n := Or.inl h
  simp [Char.ofNat, dif_pos hv, Char.ofNatAux, Char.toNat, UInt32.toNat]

theorem isUpper_iff (c : Char) : c.isUpper = true ↔ 65 ≤ c.toNat ∧ c.toNat ≤ 90 := by
  simp only [Char.isUpper, Bool.and_eq_true, decide_eq_true_eq, ge_iff_le, ule_iff]
  exact Iff.rfl

theorem isLower_iff (c : Char) : c.isLower = true ↔ 97 ≤ c.toNat ∧ c.toNat ≤ 122 := by
  simp only [Char.isLower, Bool.and_eq_true, decide_eq_true_eq, ge_iff_le, ule_iff]
  exact Iff.rfl

theorem isAlpha_iff (c : Char) : c.isAlpha = true ↔
    (65 ≤ c.toNat ∧ c.toNat ≤ 90) ∨ (97 ≤ c.toNat ∧ c.toNat ≤ 122) := by
  simp only [Char.isAlpha, Bool.or_eq_true, isUpper_iff, isLower_iff]

theorem toLower_of_upper {c : Char} (h : 65 ≤ c.toNat ∧ c.toNat ≤ 90) :
    c.toLower = Char.ofNat (c.toNat + 32) := by
  unfold Char.toLower
  rw [if_pos h]

theorem toLower_of_not_upper {c : Char} (h : ¬(65 ≤ c.toNat ∧ c.toNat ≤ 90)) :
    c.toLower = c := by
  unfold Char.toLower
  rw [if_neg h]

theorem toUpper_of_lower {c : Char} (h : 97 ≤ c.toNat ∧ c.toNat ≤ 122) :
    c.toUpper = Char.ofNat (c.toNat - 32) := by
  unfold Char.toUpper
  rw [if_pos h]

theorem toUpper_of_not_lower {c : Char} (h : ¬(97 ≤ c.toNat ∧ c.toNat ≤ 122)) :
    c.toUpper = c := by
  unfold Char.toUpper
  rw [if_neg h]

theorem isLower_toLower {c : Char} (h : c.isAlpha = true) : (c.toLower).isLower = true := by
  rw [isAlpha_iff] at h
  rw [isLower_iff]
  rcases h with h | h
  · rw [toLower_of_upper h, charToNat_ofNat _ (by omega)]
    omega
  · rw [toLower_of_not_upper (by omega)]
    omega

theorem isAlpha_toLower {c : Char} (h : c.isAlpha = true) : (c.toLower).isAlpha = true := by
  rw [isAlpha_iff]
  have := isLower_toLower h
  rw [isLower_iff] at this
  omega

theorem toLower_toLower (c : Char) : c.toLower.toLower = c.toLower := by
  by_cases h : 65 ≤ c.toNat ∧ c.toNat ≤ 90
  · rw [toLower_of_upper h]
    rw [toLower_of_not_upper]
    rw [charToNat_ofNat _ (by omega)]
    omega
  · rw [toLower_of_not_upper h, toLower_of_not_upper h]

theorem toUpper_toLower {c : Char} (h : c.isAlpha = true) : c.toLower.toUpper = c.toUpper := by
  rw [isAlpha_iff] at h
  rcases h with h | h
  · have hn : (Char.ofNat (c.toNat + 32)).toNat = c.toNat + 32 :=
      charToNat_ofNat _ (by omega)
    have hlow : 97 ≤ (Char.ofNat (c.toNat + 32)).toNat ∧
        (Char.ofNat (c.toNat + 32)).toNat ≤ 122 := by
      rw [hn]
      omega
    rw [toLower_of_upper h, toUpper_of_lower hlow,
      toUpper_of_not_lower (show ¬(97 ≤ c.toNat ∧ c.toNat ≤ 122) by omega), hn]
    have h32 : c.toNat + 32 - 32 = c.toNat := by omega
    rw [h32, Char.ofNat_toNat]
  · rw [toLower_of_not_upper (by omega)]

theorem toLower_toUpper {c : Char} (h : c.isAlpha = true) : c.toUpper.toLower = c.toLower := by
  rw [isAlpha_iff] at h
  rcases h with h | h
  · rw [toUpper_of_not_lower (by omega), toLower_of_upper h]
  · have hn : (Char.ofNat (c.toNat - 32)).toNat = c.toNat - 32 :=
      charToNat_ofNat _ (by omega)
    have hup : 65 ≤ (Char.ofNat (c.toNat - 32)).toNat ∧
        (Char.ofNat (c.toNat - 32)).toNat ≤ 90 := by
      rw [hn]
      omega
    rw [toUpper_of_lower h, toLower_of_upper hup,
      toLower_of_not_upper (show ¬(65 ≤ c.toNat ∧ c.toNat ≤ 90) by omega), hn]
    have h32 : c.toNat - 32 + 32 = c.toNat := by omega
    rw [h32, Char.ofNat_toNat]

theorem toUpper_of_isUpper {c : Char} (h : c.isUpper = true) : c.toUpper = c := by
  rw [isUpper_iff] at h
  exact toUpper_of_not_lower (by omega)

theorem isAlpha_toNat_ne {c : Char} (h : c.isAlpha = true) {d : Char}
    (hd : d.toNat < 65 ∨ (90 < d.toNat ∧ d.toNat < 97) ∨ 122 < d.toNat) : c ≠ d := by
  rw [isAlpha_iff] at h
  intro he
  subst he
  omega

theorem alpha_ne_slash {c : Char} (h : c.isAlpha = true) : c ≠ '/' :=
  isAlpha_toNat_ne h (by decide)

theorem alpha_ne_colon {c : Char} (h : c.isAlpha = true) : c ≠ ':' :=
  isAlpha_toNat_ne h (by decide)

theorem alpha_ne_bslash {c : Char} (h : c.isAlpha = true) : c ≠ '\\' :=
  isAlpha_toNat_ne h (by decide)

theorem alpha_ne_dot {c : Char} (h : c.isAlpha = true) : c ≠ '.' :=
  isAlpha_toNat_ne h (by decide)

/-! ### Splitting and joining -/

theorem splitAllP_ne_nil (p : Char → Bool) (s : Str) : splitAllP p s ≠ [] := by
  induction s with
  | nil => simp [splitAllP]
  | cons c t ih =>
    simp only [splitAllP]
    split
    · simp
    · rcases h : splitAllP p t with _ | ⟨a, r⟩ <;> simp

theorem splitAllP_sep_free (p : Char → Bool) (s : Str) :
    ∀ x ∈ splitAllP p s, ∀ c ∈ x, p c = false := by
  induction s with
  | nil =>
    intro x hx c hc
    simp [splitAllP] at hx
    subst hx
    simp at hc
  | cons a t ih =>
    intro x hx c hc
    simp only [splitAllP] at hx
    by_cases hp : p a = true
    · rw [if_pos hp] at hx
      rcases List.mem_cons.mp hx with h | h
      · subst h
        simp at hc
      · exact ih x h c hc
    · rw [if_neg hp] at hx
      rcases hsp : splitAllP p t with _ | ⟨b, r⟩
      · exact absurd hsp (splitAllP_ne_nil p t)
      · rw [hsp] at hx
        rcases List.mem_cons.mp hx with h | h
        · subst h
          rcases List.mem_cons.mp hc with h2 | h2
          · subst h2
            exact Bool.eq_false_iff.mpr hp
          · exact ih b (by rw [hsp]; exact List.mem_cons_self b r) c h2
        · exact ih x (by rw [hsp]; exact List.mem_cons_of_mem b h) c hc

theorem splitAllP_subset (p : Char → Bool) (s : Str) :
    ∀ x ∈ splitAllP p s, ∀ c ∈ x, c ∈ s := by
  induction s with
  | nil =>
    intro x hx c hc
    simp [splitAllP] at hx
    subst hx
    simp at hc
  | cons a t ih =>
    intro x hx c hc
    simp only [splitAllP] at hx
    by_cases hp : p a = true
    · rw [if_pos hp] at hx
      rcases List.mem_cons.mp hx with h | h
      · subst h
        simp at hc
      · exact List.mem_cons_of_mem a (ih x h c hc)
    · rw [if_neg hp] at hx
      rcases hsp : splitAllP p t with _ | ⟨b, r⟩
      · exact absurd hsp (splitAllP_ne_nil p t)
      · rw [hsp] at hx
        rcases List.mem_cons.mp hx with h | h
        · subst h
          rcases List.mem_cons.mp hc with h2 | h2
          · subst h2
            exact List.mem_cons_self c t
          · exact List.mem_cons_of_mem a
              (ih b (by rw [hsp]; exact List.mem_cons_self b r) c h2)
        · exact List.mem_cons_of_mem a (ih x (by rw [hsp]; exact List.mem_cons_of_mem b h) c hc)

theorem splitAllP_all_false {p : Char → Bool} {a : Str} (h : ∀ c ∈ a, p c = false) :
    splitAllP p a = [a] := by
  induction a with
  | nil => simp [splitAllP]
  | cons c t ih =>
    have hc : p c = false := h c (List.mem_cons_self c t)
    have ht : splitAllP p t = [t] := ih fun d hd => h d (List.mem_cons_of_mem c hd)
    simp only [splitAllP, hc]
    rw [if_neg (by simp [hc]), ht]

theorem splitAllP_append {p : Char → Bool} {a t : Str} {sep : Char}
    (h : ∀ c ∈ a, p c = false) (hs : p sep = true) :
    splitAllP p (a ++ sep :: t) = a :: splitAllP p t := by
  induction a with
  | nil =>
    simp only [List.nil_append, splitAllP]
    rw [if_pos hs]
  | cons c b ih =>
    have hc : p c = false := h c (List.mem_cons_self c b)
    have hb := ih fun d hd => h d (List.mem_cons_of_mem c hd)
    simp only [List.cons_append, splitAllP]
    rw [if_neg (by simp [hc]), List.append_eq, hb]

theorem splitAllP_joinSep {p : Char → Bool} {sep : Char} (hs : p sep = true) :
    ∀ S : List Str, S ≠ [] → (∀ x ∈ S, ∀ c ∈ x, p c = false) →
      splitAllP p (joinSep sep S) = S := by
  intro S
  induction S with
  | nil => intro h; exact absurd rfl h
  | cons a r ih =>
    intro _ hfree
    rcases r with _ | ⟨b, r2⟩
    · simp only [joinSep]
      exact splitAllP_all_false (hfree a (List.mem_cons_self a []))
    · have hjoin : joinSep sep (a :: b :: r2) = a ++ sep :: joinSep sep (b :: r2) := rfl
      rw [hjoin, splitAllP_append (hfree a (List.mem_cons_self a (b :: r2))) hs]
      rw [ih (by simp) fun x hx c hc => hfree x (List.mem_cons_of_mem a hx) c hc]

theorem filterSegs_eq_self {S : List Str} (h : ∀ x ∈ S, x ≠ [] ∧ x ≠ ['.']) :
    filterSegs S = S := by
  rw [filterSegs, List.filter_eq_self]
  intro a ha
  obtain ⟨h1, h2⟩ := h a ha
  simp [List.isEmpty_iff, h1, h2]

theorem mem_filterSegs {S : List Str} {x : Str} (h : x ∈ filterSegs S) :
    x ∈ S ∧ x ≠ [] ∧ x ≠ ['.'] := by
  rw [filterSegs] at h
  have h2 := List.of_mem_filter h
  refine ⟨List.mem_of_mem_filter h, ?_, ?_⟩
  · intro hx
    rw [hx] at h2
    simp [List.isEmpty] at h2
  · intro hx
    rw [hx] at h2
    simp at h2

theorem posixSegsOf_good {s : Str} : ∀ x ∈ posixSegsOf s, goodSeg x := by
  intro x hx
  obtain ⟨hmem, h1, h2⟩ := mem_filterSegs hx
  refine ⟨h1, h2, fun c hc => ?_⟩
  have := splitAllP_sep_free (fun c => c = '/') s x hmem c hc
  simpa using this

theorem posixSegsOf_subset {s : Str} : ∀ x ∈ posixSegsOf s, ∀ c ∈ x, c ∈ s := by
  intro x hx
  obtain ⟨hmem, _, _⟩ := mem_filterSegs hx
  exact splitAllP_subset (fun c => c = '/') s x hmem

theorem winSegsOf_good {s : Str} :
    ∀ x ∈ winSegsOf s, x ≠ [] ∧ x ≠ ['.'] ∧ ∀ c ∈ x, isWinSep c = false := by
  intro x hx
  obtain ⟨hmem, h1, h2⟩ := mem_filterSegs hx
  exact ⟨h1, h2, fun c hc => splitAllP_sep_free isWinSep s x hmem c hc⟩

theorem winSegsOf_subset {s : Str} : ∀ x ∈ winSegsOf s, ∀ c ∈ x, c ∈ s := by
  intro x hx
  obtain ⟨hmem, _, _⟩ := mem_filterSegs hx
  exact splitAllP_subset isWinSep s x hmem

theorem splitAllP_congr {p q : Char → Bool} : ∀ {s : Str}, (∀ c ∈ s, p c = q c) →
    splitAllP p s = splitAllP q s := by
  intro s
  induction s with
  | nil => intro _; rfl
  | cons c t ih =>
    intro h
    have hc : p c = q c := h c (List.mem_cons_self c t)
    have ht := ih fun d hd => h d (List.mem_cons_of_mem c hd)
    simp only [splitAllP, hc, ht]

theorem joinSep_append_singleton (sep : Char) (S : List Str) (x : Str) :
    joinSep sep (S ++ [x]) = (if S = [] then [] else joinSep sep S ++ [sep]) ++ x := by
  induction S with
  | nil => simp [joinSep]
  | cons a r ih =>
    rcases r with _ | ⟨b, r2⟩
    · simp [joinSep]
    · have h1 : joinSep sep (a :: b :: r2 ++ [x]) =
          a ++ sep :: joinSep sep (b :: r2 ++ [x]) := rfl
      have h2 : joinSep sep (a :: b :: r2) = a ++ sep :: joinSep sep (b :: r2) := rfl
      rw [h1, ih, h2]
      simp

/-! ### Limited split and `is_mnt` characterization -/

theorem pySplitN_head (sep : Char) (n : Nat) : ∀ t0 : Str,
    ∃ r, pySplitN sep (n + 1) t0 = (t0.takeWhile (fun c => !(c == sep))) :: r := by
  intro t0
  induction t0 with
  | nil => exact ⟨[], rfl⟩
  | cons c t ih =>
    by_cases hc : c = sep
    · refine ⟨pySplitN sep n t, ?_⟩
      rw [List.takeWhile_cons]
      simp only [pySplitN, if_pos hc, hc]
      simp
    · obtain ⟨r, hr⟩ := ih
      refine ⟨r, ?_⟩
      rw [List.takeWhile_cons]
      simp only [pySplitN, if_neg hc, hr]
      simp [hc]

theorem pySplitN_isPre (t0 : Str) :
    pySplitN '/' 4 (("/mnt/").toList ++ t0) =
      [] :: ("mnt").toList :: pySplitN '/' 2 t0 := rfl

theorem takeWhile_eq_nil_of_head {t : Str} (h : t = [] ∨ ∃ t2, t = '/' :: t2) :
    t.takeWhile (fun c => !(c == '/')) = [] := by
  rcases h with h | ⟨t2, h⟩ <;> subst h
  · rfl
  · rw [List.takeWhile_cons]
    simp

theorem takeWhile_nil_iff (t : Str) :
    t.takeWhile (fun c => !(c == '/')) = [] ↔ (t = [] ∨ ∃ t2, t = '/' :: t2) := by
  constructor
  · intro h
    rcases t with _ | ⟨c, t2⟩
    · exact Or.inl rfl
    · by_cases hc : c = '/'
      · exact Or.inr ⟨t2, by rw [hc]⟩
      · rw [List.takeWhile_cons] at h
        simp [hc] at h
  · exact takeWhile_eq_nil_of_head

theorem is_mnt_iff (s : Str) : is_mnt s = true ↔
    ∃ l t, s = ("/mnt/").toList ++ l :: t ∧ l.isAlpha = true ∧
      (t = [] ∨ ∃ t2, t = '/' :: t2) := by
  constructor
  · intro h
    rw [is_mnt] at h
    by_cases hpre : List.isPrefixOf (("/mnt/").toList) s
    · rw [if_neg (by rw [hpre]; simp)] at h
      obtain ⟨t0, ht0⟩ := List.isPrefixOf_iff_prefix.mp hpre
      subst ht0
      rw [pySplitN_isPre] at h
      simp only [List.drop_succ_cons, List.drop_zero] at h
      obtain ⟨r, hr⟩ := pySplitN_head '/' 1 t0
      rw [hr] at h
      rcases t0 with _ | ⟨c, t⟩
      · simp at h
      · by_cases hc : c = '/'
        · subst hc
          rw [show List.takeWhile (fun c => !(c == '/')) ('/' :: t) = [] from by
            rw [List.takeWhile_cons]; simp] at h
          simp at h
        · rw [List.takeWhile_cons,
            show (!(c == '/')) = true from by simp [hc]] at h
          simp only [cond] at h
          rw [Bool.and_eq_true] at h
          obtain ⟨hlen, halpha⟩ := h
          have htw : t.takeWhile (fun c => !(c == '/')) = [] := by
            rcases hx : t.takeWhile (fun c => !(c == '/')) with _ | ⟨d, u⟩
            · rfl
            · rw [hx] at hlen
              simp at hlen
          refine ⟨c, t, rfl, ?_, (takeWhile_nil_iff t).mp htw⟩
          rw [htw] at halpha
          simpa using halpha
    · have hf : List.isPrefixOf (("/mnt/").toList) s = false := by
        rw [Bool.eq_false_iff]
        intro hcon
        exact hpre hcon
      rw [if_pos (by rw [hf]; simp)] at h
      exact absurd h (by simp)
  · rintro ⟨l, t, rfl, hl, ht⟩
    rw [is_mnt]
    have hpre : List.isPrefixOf (("/mnt/").toList)
        ((("/mnt/").toList ++ l :: t)) = true :=
      List.isPrefixOf_iff_prefix.mpr ⟨l :: t, rfl⟩
    rw [if_neg (by rw [hpre]; simp)]
    rw [pySplitN_isPre]
    simp only [List.drop_succ_cons, List.drop_zero]
    have hstep : (l :: t).takeWhile (fun c => !(c == '/')) = [l] := by
      rw [List.takeWhile_cons, show (!(l == '/')) = true from by simp [alpha_ne_slash hl]]
      rw [takeWhile_eq_nil_of_head ht]
      rfl
    obtain ⟨r2, hr2⟩ := pySplitN_head '/' 1 (l :: t)
    rw [hr2, hstep]
    simp [hl]

theorem takeWhile_cons_single {l : Char} {t : Str} (hl : l ≠ '/')
    (ht : t = [] ∨ ∃ t2, t = '/' :: t2) :
    (l :: t).takeWhile (fun c => !(c == '/')) = [l] := by
  rw [List.takeWhile_cons, show (!(l == '/')) = true from by simp [hl],
    takeWhile_eq_nil_of_head ht]
  rfl

theorem get_drive_letter_mnt_eq {l : Char} {t : Str} (hl : l.isAlpha = true)
    (ht : t = [] ∨ ∃ t2, t = '/' :: t2) :
    get_drive_letter_mnt (("/mnt/").toList ++ l :: t) = some l.toLower := by
  rw [get_drive_letter_mnt, pySplitN_isPre]
  simp only [List.drop_succ_cons, List.drop_zero]
  obtain ⟨r2, hr2⟩ := pySplitN_head '/' 1 (l :: t)
  rw [hr2, takeWhile_cons_single (alpha_ne_slash hl) ht]
  simp [hl]

theorem splitAllP_cons_of_sep {p : Char → Bool} {c : Char} (hc : p c = true) (u : Str) :
    splitAllP p (c :: u) = [] :: splitAllP p u := by
  simp only [splitAllP, if_pos hc]

theorem filterSegs_nil_cons (X : List Str) : filterSegs ([] :: X) = filterSegs X := by
  simp [filterSegs, List.filter]

theorem filterSegs_cons_keep {x : Str} {X : List Str} (h1 : x ≠ []) (h2 : x ≠ ['.']) :
    filterSegs (x :: X) = x :: filterSegs X := by
  have hp : (!x.isEmpty && !(x = ['.'] : Bool)) = true := by
    simp [h1, h2, List.isEmpty_iff]
  simp only [filterSegs, List.filter_cons, hp]
  rfl

theorem posixSegsOf_mnt {l : Char} {t : Str} (hl : l.isAlpha = true)
    (ht : t = [] ∨ ∃ t2, t = '/' :: t2) :
    posixSegsOf (("/mnt/").toList ++ l :: t) =
      ("mnt").toList :: [l] :: posixSegsOf t := by
  have hshape : ("/mnt/").toList ++ l :: t =
      '/' :: (("mnt").toList ++ '/' :: (l :: t)) := rfl
  rw [posixSegsOf, hshape, splitAllP_cons_of_sep (by simp),
    splitAllP_append (a := ("mnt").toList) (by decide) (by simp)]
  have hlp : ∀ c ∈ [l], (fun c => (c = '/' : Bool)) c = false := by
    intro c hc
    rcases List.mem_singleton.mp hc with rfl
    simp [alpha_ne_slash hl]
  rcases ht with ht | ⟨t2, ht⟩
  · subst ht
    rw [show splitAllP (fun c => (c = '/' : Bool)) [l] = [[l]] from
      splitAllP_all_false hlp]
    rw [filterSegs_nil_cons, filterSegs_cons_keep (by decide) (by decide),
      filterSegs_cons_keep (by simp) (by simp [alpha_ne_dot hl])]
    rfl
  · subst ht
    rw [show (l : Char) :: '/' :: t2 = [l] ++ '/' :: t2 from rfl,
      splitAllP_append hlp (by simp)]
    rw [filterSegs_nil_cons, filterSegs_cons_keep (by decide) (by decide),
      filterSegs_cons_keep (by simp) (by simp [alpha_ne_dot hl])]
    rw [show posixSegsOf ('/' :: t2) = filterSegs (splitAllP (fun c => (c = '/' : Bool)) t2)
      from by rw [posixSegsOf, splitAllP_cons_of_sep (by simp), filterSegs_nil_cons]]

/-! ### Canonical mount strings and `_init_views` -/

theorem mountStr_eq (l : Char) (S : List Str) : mountStr l S = ("/mnt/").toList ++ l ::
    (if S = [] then [] else '/' :: joinSep '/' S) := by
  rw [mountStr, posixRender]
  rcases S with _ | ⟨b, S2⟩
  · rfl
  · rfl

theorem mntTail_shape (S : List Str) :
    (if S = [] then [] else '/' :: joinSep '/' S) = ([] : Str) ∨
      ∃ t2, (if S = [] then [] else '/' :: joinSep '/' S) = '/' :: t2 := by
  rcases S with _ | ⟨b, S2⟩
  · exact Or.inl rfl
  · exact Or.inr ⟨joinSep '/' (b :: S2), by simp⟩

theorem goodSegs_slash_free {S : List Str} (hS : goodSegs S) :
    ∀ x ∈ S, ∀ c ∈ x, (c = '/' : Bool) = false := by
  intro x hx c hc
  obtain ⟨_, _, h3⟩ := hS x hx
  simp [h3 c hc]

theorem posixSegsOf_tail {S : List Str} (hS : goodSegs S) :
    posixSegsOf (if S = [] then [] else '/' :: joinSep '/' S) = S := by
  rcases S with _ | ⟨b, S2⟩
  · rfl
  · rw [if_neg (by simp), posixSegsOf, splitAllP_cons_of_sep (by simp), filterSegs_nil_cons]
    rw [splitAllP_joinSep (by simp) (b :: S2) (by simp) (goodSegs_slash_free hS)]
    exact filterSegs_eq_self fun x hx => ⟨(hS x hx).1, (hS x hx).2.1⟩

theorem rootCountOf_mnt (l : Char) (t : Str) :
    rootCountOf (("/mnt/").toList ++ l :: t) = 1 := rfl

theorem posixParse_mountStr {l : Char} {S : List Str} (hl : l.isAlpha = true)
    (hS : goodSegs S) :
    posixParse (mountStr l S) =
      { root := 1, segs := ("mnt").toList :: [l] :: S } := by
  rw [mountStr_eq, posixParse, rootCountOf_mnt,
    posixSegsOf_mnt hl (mntTail_shape S), posixSegsOf_tail hS]

theorem is_mnt_mountStr {l : Char} {S : List Str} (hl : l.isAlpha = true) :
    is_mnt (mountStr l S) = true := by
  rw [mountStr_eq]
  exact (is_mnt_iff _).mpr ⟨l, _, rfl, hl, mntTail_shape S⟩

theorem is_nt_mountStr (l : Char) (S : List Str) : is_nt (mountStr l S) = false := by
  rw [mountStr_eq]
  rfl

theorem init_views_mountStr {l : Char} {S : List Str} (hl : l.isAlpha = true)
    (hS : goodSegs S) :
    init_views (mountStr l S) = .ok (mkMState l S) := by
  rw [init_views, if_neg (by rw [is_nt_mountStr]; simp),
    if_pos (by rw [is_mnt_mountStr hl])]
  rw [show get_drive_letter_mnt (mountStr l S) = some l.toLower from by
    rw [mountStr_eq]; exact get_drive_letter_mnt_eq hl (mntTail_shape S)]
  rw [posixParse_mountStr hl hS]
  rfl

/-! ### Constructor characterization on the POSIX host -/

theorem is_nt_iff (s : Str) : is_nt s = true ↔
    ∃ a t, s = a :: ':' :: t ∧ a.isAlpha = true := by
  constructor
  · intro h
    rcases s with _ | ⟨a, _ | ⟨b, t⟩⟩
    · exact absurd h (by simp [is_nt])
    · exact absurd h (by simp [is_nt])
    · rw [is_nt, Bool.and_eq_true] at h
      obtain ⟨h1, h2⟩ := h
      have hb : b = ':' := by simpa using h2
      exact ⟨a, t, by rw [hb], h1⟩
  · rintro ⟨a, t, rfl, ha⟩
    simp [is_nt, ha]

theorem is_mnt_of_nt {a : Char} (t : Str) (ha : a.isAlpha = true) :
    is_mnt (a :: t) = false := by
  rw [is_mnt, if_pos]
  have : (('/' == a) = false) := by
    simp
    exact fun hcon => alpha_ne_slash ha hcon.symm
  simp [List.isPrefixOf, this]

theorem splitAllP_cons_of_not_sep {p : Char → Bool} (c : Char) (u : Str)
    (hc : p c = false) :
    ∃ h r, splitAllP p u = h :: r ∧ splitAllP p (c :: u) = (c :: h) :: r := by
  rcases hx : splitAllP p u with _ | ⟨h1, r1⟩
  · exact absurd hx (splitAllP_ne_nil p u)
  · refine ⟨h1, r1, rfl, ?_⟩
    have hcond : ¬(p c = true) := by rw [hc]; exact Bool.false_ne_true
    simp only [splitAllP, if_neg hcond, hx]

theorem get_drive_letter_nt_eq {a : Char} {t : Str} (ha : a.isAlpha = true) :
    get_drive_letter_nt (a :: ':' :: t) = some a.toLower := by
  rw [get_drive_letter_nt, if_pos (by simp [is_nt, ha])]

theorem joinSep_cons_expose {x : Str} {F : List Str} :
    ∃ v, joinSep '/' (x :: F) = x ++ v := by
  rcases F with _ | ⟨b, F2⟩
  · exact ⟨[], by simp [joinSep]⟩
  · exact ⟨'/' :: joinSep '/' (b :: F2), rfl⟩

theorem create_unsupported {os : Os} {s : Str}
    (h1 : is_mnt (replace_backslashes s) = false)
    (h2 : is_nt (replace_backslashes s) = false) :
    createOn os s = .error msg_unsupported := by
  rw [createOn, normalize_path, if_neg (by rw [h1]; simp), if_neg (by rw [h2]; simp)]
  rfl

/-! ### Accessors on canonical states -/

theorem wsl_path_mkM (l : Char) (S : List Str) :
    wsl_path (mkMState l S) = .ok (mountStr l S, mkMState l S) := rfl

theorem wsl_path_mkF (l : Char) (S : List Str) :
    wsl_path (mkFState l S) = .ok (mountStr l S, mkFState l S) := rfl

theorem posixPartsList_mnt (l : Char) (S : List Str) :
    posixPartsList { root := 1, segs := ("mnt").toList :: [l] :: S } =
      ['/'] :: ("mnt").toList :: [l] :: S := rfl

theorem ensure_win_view_mkM (l : Char) (S : List Str) :
    ensure_win_view (mkMState l S) = .ok (mkFState l S) := by
  have key : ensure_win_view (mkMState l S) =
      (if ((['/'] :: ("mnt").toList :: [l] :: S : List Str).length < 3 ∨
          ¬((['/'] :: ("mnt").toList :: [l] :: S : List Str).getD 1 [] = ("mnt").toList)) then
        Except.error msg_not_under_mnt
      else Except.ok (mkFState l S)) := rfl
  rw [key, if_neg]
  push_neg
  refine ⟨?_, rfl⟩
  simp

theorem win_path_mkM (l : Char) (S : List Str) :
    win_path (mkMState l S) =
      .ok (winRender (winOfComps ((l.toLower.toUpper :: (":\\").toList) :: S)),
        mkFState l S) := by
  rw [win_path, ensure_win_view_mkM]
  rfl

theorem win_path_mkF (l : Char) (S : List Str) :
    win_path (mkFState l S) =
      .ok (winRender (winOfComps ((l.toLower.toUpper :: (":\\").toList) :: S)),
        mkFState l S) := rfl

/-! ### Derived Windows views -/

theorem winSplitComp_eq_default {sg : Str} (h4 : secondIsColon sg = false) :
    winSplitComp sg =
      { drive := [],
        root := match sg with | c :: _ => isWinSep c | [] => false,
        segs := winSegsOf sg } := by
  rcases sg with _ | ⟨x, _ | ⟨y, t⟩⟩
  · rfl
  · rfl
  · by_cases hy : y = ':'
    · subst hy
      exact absurd h4 (by simp [secondIsColon])
    · unfold winSplitComp
      split
      · rename_i heq
        obtain ⟨_, hrest⟩ := List.cons_eq_cons.mp heq
        obtain ⟨hy2, _⟩ := List.cons_eq_cons.mp hrest
        exact absurd hy2 hy
      · rfl

theorem winSplitComp_drive_nil {sg : Str} (h4 : secondIsColon sg = false) :
    (winSplitComp sg).drive = [] := by
  rw [winSplitComp_eq_default h4]

theorem winSplitComp_plain {sg : Str} (h1 : sg ≠ []) (h2 : sg ≠ ['.'])
    (h3 : ∀ c ∈ sg, isWinSep c = false) (h4 : secondIsColon sg = false) :
    winSplitComp sg = { drive := [], root := false, segs := [sg] } := by
  have hsegs : winSegsOf sg = [sg] := by
    rw [winSegsOf, splitAllP_all_false h3, filterSegs_cons_keep h1 h2]
    rfl
  rw [winSplitComp_eq_default h4, hsegs]
  rcases sg with _ | ⟨x, t⟩
  · exact absurd rfl h1
  · have hx : isWinSep x = false := h3 x (List.mem_cons_self x t)
    show ({ drive := [], root := isWinSep x, segs := [x :: t] } : WinParts) = _
    rw [hx]

theorem ntCombine_eq {acc : WinParts} {sg : Str} {pd : Str} {pr : Bool} {ps : List Str}
    (h : winSplitComp sg = ⟨pd, pr, ps⟩) :
    ntCombine acc sg =
      (if pr then { drive := if pd ≠ [] ∨ acc.drive = [] then pd else acc.drive,
                    root := true, segs := ps }
       else if pd ≠ [] ∧ lowerStr pd ≠ lowerStr acc.drive then ⟨pd, pr, ps⟩
       else if pd ≠ [] then { acc with drive := pd, segs := acc.segs ++ ps }
       else { acc with segs := acc.segs ++ ps }) := by
  simp only [ntCombine, h]

theorem ntCombine_plain {acc : WinParts} {sg : Str}
    (h : winSplitComp sg = { drive := [], root := false, segs := [sg] }) :
    ntCombine acc sg = { acc with segs := acc.segs ++ [sg] } := by
  rw [ntCombine_eq h]
  rw [if_neg (by simp), if_neg (by simp), if_neg (by simp)]

theorem foldl_ntCombine_plain {S : List Str}
    (hS : ∀ sg ∈ S, winSplitComp sg = { drive := [], root := false, segs := [sg] }) :
    ∀ acc : WinParts, S.foldl ntCombine acc = { acc with segs := acc.segs ++ S } := by
  induction S with
  | nil => intro acc; simp
  | cons sg S2 ih =>
    intro acc
    rw [List.foldl_cons, ntCombine_plain (hS sg (List.mem_cons_self sg S2)),
      ih (fun x hx => hS x (List.mem_cons_of_mem sg hx))]
    simp

theorem winOfComps_plainSegs {d : Char} {S : List Str}
    (hS : ∀ sg ∈ S, sg ≠ [] ∧ sg ≠ ['.'] ∧ (∀ c ∈ sg, isWinSep c = false) ∧
      secondIsColon sg = false) :
    winOfComps ((d :: (":\\").toList) :: S) =
      { drive := [d, ':'], root := true, segs := S } := by
  rw [winOfComps]
  rw [show winSplitComp (d :: (":\\").toList) =
    { drive := [d, ':'], root := true, segs := [] } from rfl]
  rw [foldl_ntCombine_plain (fun sg hsg =>
    winSplitComp_plain (hS sg hsg).1 (hS sg hsg).2.1 (hS sg hsg).2.2.1 (hS sg hsg).2.2.2)]
  rfl

theorem ntCombine_drive {acc : WinParts} {sg : Str}
    (hd : (winSplitComp sg).drive = []) (hacc : acc.drive ≠ []) :
    (ntCombine acc sg).drive = acc.drive := by
  rcases hw : winSplitComp sg with ⟨pd, pr, ps⟩
  rw [hw] at hd
  simp only at hd
  subst hd
  rw [ntCombine_eq hw]
  by_cases hpr : pr = true
  · rw [if_pos hpr, if_neg (by simp [hacc])]
  · rw [if_neg hpr, if_neg (by simp), if_neg (by simp)]

theorem foldl_ntCombine_drive {S : List Str} (hS : ∀ sg ∈ S, secondIsColon sg = false) :
    ∀ acc : WinParts, acc.drive ≠ [] → (S.foldl ntCombine acc).drive = acc.drive := by
  induction S with
  | nil => intro acc _; rfl
  | cons sg S2 ih =>
    intro acc hacc
    rw [List.foldl_cons]
    have hstep : (ntCombine acc sg).drive = acc.drive :=
      ntCombine_drive (winSplitComp_drive_nil (hS sg (List.mem_cons_self sg S2))) hacc
    rw [ih (fun x hx => hS x (List.mem_cons_of_mem sg hx)) (ntCombine acc sg)
      (by rw [hstep]; exact hacc), hstep]

theorem winRender_drive_root (d : Char) (S : List Str) :
    winRender { drive := [d, ':'], root := true, segs := S } =
      d :: ':' :: '\\' :: joinSep '\\' S := by
  rw [winRender, if_neg (by simp)]
  rfl

/-! ### Round trips and joined paths -/

theorem rootCountOf_slash_cons {c : Char} (w : Str) (hc : c ≠ '/') :
    rootCountOf ('/' :: c :: w) = 1 := by
  have h1 : leadSlashes ('/' :: c :: w) = 1 := by
    simp only [leadSlashes, if_neg hc]
    simp
  rw [rootCountOf, h1]
  norm_num

theorem posixParse_render {q : PosixParts} (h1 : q.root = 1) (hq : goodSegs q.segs) :
    posixParse (posixRender q) = q := by
  rcases q with ⟨root, segs⟩
  simp only at h1
  subst h1
  rcases segs with _ | ⟨x, r⟩
  · rfl
  · obtain ⟨hx1, hx2, hx3⟩ := hq x (List.mem_cons_self x r)
    rcases hx : x with _ | ⟨c, u⟩
    · exact absurd hx hx1
    · have hrender : posixRender ⟨1, x :: r⟩ = '/' :: joinSep '/' (x :: r) := by
        rw [posixRender, if_neg (by simp)]
        rfl
      obtain ⟨v, hv⟩ := joinSep_cons_expose (x := x) (F := r)
      have hc : c ≠ '/' := hx3 c (by rw [hx]; exact List.mem_cons_self c u)
      rw [← hx, hrender, posixParse]
      have hsplit : posixSegsOf ('/' :: joinSep '/' (x :: r)) = x :: r := by
        rw [posixSegsOf, splitAllP_cons_of_sep (by simp), filterSegs_nil_cons,
          splitAllP_joinSep (by simp) (x :: r) (by simp) (goodSegs_slash_free hq)]
        exact filterSegs_eq_self fun y hy => ⟨(hq y hy).1, (hq y hy).2.1⟩
      rw [hsplit]
      have hroot : rootCountOf ('/' :: joinSep '/' (x :: r)) = 1 := by
        rw [hv, hx]
        exact rootCountOf_slash_cons _ hc
      rw [hroot]

theorem posixRender_head {q : PosixParts} (h : 1 ≤ q.root) :
    ∃ w, posixRender q = '/' :: w := by
  rcases q with ⟨root, segs⟩
  simp only at h
  rw [posixRender, if_neg (by simp; omega)]
  rcases root with _ | root2
  · omega
  · exact ⟨List.replicate root2 '/' ++ joinSep '/' segs, rfl⟩

theorem posixRender_two_heads {q : PosixParts} (h : 2 ≤ q.root) :
    ∃ w, posixRender q = '/' :: '/' :: w := by
  rcases q with ⟨root, segs⟩
  simp only at h
  rw [posixRender, if_neg (by simp; omega)]
  rcases root with _ | ⟨_ | root3⟩
  · omega
  · omega
  · exact ⟨List.replicate root3 '/' ++ joinSep '/' segs, rfl⟩

theorem is_nt_slash (w : Str) : is_nt ('/' :: w) = false := by
  rcases w with _ | ⟨x, u⟩
  · rfl
  · rfl

theorem init_views_render_ok {q : PosixParts} (hroot : 1 ≤ q.root) (hq : goodSegs q.segs)
    {st2 : WState} (h : init_views (posixRender q) = .ok st2) :
    ∃ l2 S2, l2.isAlpha = true ∧ goodSegs S2 ∧
      q = ⟨1, ("mnt").toList :: [l2] :: S2⟩ ∧ st2 = mkMState l2 S2 := by
  obtain ⟨w, hw⟩ := posixRender_head hroot
  by_cases hmnt : is_mnt (posixRender q) = true
  · obtain ⟨l2, t', heq, hl2, ht'⟩ := (is_mnt_iff _).mp hmnt
    have hroot1 : q.root = 1 := by
      by_contra hcon
      have h2le : 2 ≤ q.root := by omega
      obtain ⟨w2, hw2⟩ := posixRender_two_heads h2le
      rw [heq] at hw2
      obtain ⟨_, hrest⟩ := List.cons_eq_cons.mp hw2
      obtain ⟨hm, _⟩ := List.cons_eq_cons.mp hrest
      exact absurd hm.symm (by decide)
    have hparse : posixParse (posixRender q) = q := posixParse_render hroot1 hq
    rw [heq, posixParse, rootCountOf_mnt, posixSegsOf_mnt hl2 ht'] at hparse
    refine ⟨l2, posixSegsOf t', hl2, posixSegsOf_good, hparse.symm, ?_⟩
    have hms : posixRender q = mountStr l2 (posixSegsOf t') := by
      rw [mountStr, ← hparse]
    rw [hms, init_views_mountStr hl2 posixSegsOf_good] at h
    exact (Except.ok.inj h).symm
  · rw [init_views, hw, if_neg (show ¬(is_nt ('/' :: w) = true) from by
      rw [is_nt_slash]; simp)] at h
    rw [← hw, if_neg hmnt] at h
    exact absurd h (by simp)

theorem goodSeg_of_plain {t : Str} (h : plainSeg t) : goodSeg t :=
  ⟨h.1, h.2.1, fun c hc => (h.2.2 c hc).1⟩

theorem goodSegs_mntT {l : Char} {S : List Str} (hl : l.isAlpha = true)
    (hS : goodSegs S) : goodSegs (("mnt").toList :: [l] :: S) := by
  intro t ht
  rcases List.mem_cons.mp ht with rfl | ht2
  · exact ⟨by simp, by simp, by decide⟩
  · rcases List.mem_cons.mp ht2 with rfl | ht3
    · exact ⟨by simp, by simp [alpha_ne_dot hl], fun c hc => by
        rcases List.mem_singleton.mp hc with rfl
        exact alpha_ne_slash hl⟩
    · exact hS t ht3

theorem truediv_structure {l : Char} {S : List Str} (hl : l.isAlpha = true)
    (hS : goodSegs S) (seg : Str) :
    ∃ q : PosixParts, 1 ≤ q.root ∧ goodSegs q.segs ∧
      truediv (mkMState l S) seg = init_views (posixRender q) := by
  rw [truediv, show (mkMState l S).pathStr = mountStr l S from rfl,
    posixParse_mountStr hl hS]
  refine ⟨posixCombine ⟨1, ("mnt").toList :: [l] :: S⟩ seg, ?_, ?_, rfl⟩
  · simp only [posixCombine]
    split
    · rename_i hcond
      exact hcond
    · exact Nat.le_refl 1
  · simp only [posixCombine]
    split
    · exact posixSegsOf_good
    · intro t ht
      rcases List.mem_append.mp ht with h1 | h2
      · exact goodSegs_mntT hl hS t h1
      · exact posixSegsOf_good t h2

theorem truediv_ok_canon {l : Char} {S : List Str} {seg : Str} {st2 : WState}
    (hl : l.isAlpha = true) (hS : goodSegs S)
    (h : truediv (mkMState l S) seg = .ok st2) :
    ∃ l2 S2, l2.isAlpha = true ∧ goodSegs S2 ∧ st2 = mkMState l2 S2 := by
  obtain ⟨q, h1, h2, heq⟩ := truediv_structure hl hS seg
  rw [heq] at h
  obtain ⟨l2, S2, ha, hg, _, hst⟩ := init_views_render_ok h1 h2 h
  exact ⟨l2, S2, ha, hg, hst⟩

theorem rootCountOf_plain {t : Str} (h : plainSeg t) : rootCountOf t = 0 := by
  obtain ⟨h1, _, h3⟩ := h
  rcases t with _ | ⟨c, u⟩
  · exact absurd rfl h1
  · have hc : c ≠ '/' := (h3 c (List.mem_cons_self c u)).1
    have hz : leadSlashes (c :: u) = 0 := by
      simp only [leadSlashes, if_neg hc]
    rw [rootCountOf, hz]
    rfl

theorem posixParse_plain {t : Str} (h : plainSeg t) : posixParse t = ⟨0, [t]⟩ := by
  obtain ⟨h1, h2, h3⟩ := h
  rw [posixParse, rootCountOf_plain ⟨h1, h2, h3⟩]
  have hsegs : posixSegsOf t = [t] := by
    rw [posixSegsOf, splitAllP_all_false (fun c hc => by simp [(h3 c hc).1]),
      filterSegs_cons_keep h1 h2]
    rfl
  rw [hsegs]

theorem truediv_plain {l : Char} {S : List Str} (hl : l.isAlpha = true)
    (hS : goodSegs S) {seg : Str} (hp : plainSeg seg) :
    truediv (mkMState l S) seg = .ok (mkMState l (S ++ [seg])) := by
  rw [truediv, show (mkMState l S).pathStr = mountStr l S from rfl,
    posixParse_mountStr hl hS]
  have hq : posixCombine ⟨1, ("mnt").toList :: [l] :: S⟩ seg =
      ⟨1, ("mnt").toList :: [l] :: (S ++ [seg])⟩ := by
    simp only [posixCombine, posixParse_plain hp]
    rw [if_neg (by simp)]
    simp
  rw [hq, show posixRender ⟨1, ("mnt").toList :: [l] :: (S ++ [seg])⟩ =
    mountStr l (S ++ [seg]) from rfl]
  have hgood : goodSegs (S ++ [seg]) := by
    intro t ht
    rcases List.mem_append.mp ht with h1 | h2
    · exact hS t h1
    · rcases List.mem_singleton.mp h2 with rfl
      exact goodSeg_of_plain hp
  exact init_views_mountStr hl hgood

theorem truediv_pathStr_only {st st' : WState} (h : st.pathStr = st'.pathStr)
    (seg : Str) : truediv st seg = truediv st' seg := by
  rw [truediv, truediv, h]


/-! ### More character and segment helpers -/

theorem isAlpha_toUpper {c : Char} (h : c.isAlpha = true) : (c.toUpper).isAlpha = true := by
  rw [isAlpha_iff] at h ⊢
  rcases h with h | h
  · rw [toUpper_of_not_lower (by omega)]
    omega
  · rw [toUpper_of_lower h, charToNat_ofNat _ (by omega)]
    omega

theorem isUpper_toUpper {c : Char} (h : c.isAlpha = true) : (c.toUpper).isUpper = true := by
  rw [isAlpha_iff] at h
  rw [isUpper_iff]
  rcases h with h | h
  · rw [toUpper_of_not_lower (by omega)]
    omega
  · rw [toUpper_of_lower h, charToNat_ofNat _ (by omega)]
    omega

theorem secondIsColon_of_no_colon {t : Str} (h : ∀ c ∈ t, c ≠ ':') :
    secondIsColon t = false := by
  rcases t with _ | ⟨x, _ | ⟨y, u⟩⟩
  · rfl
  · rfl
  · have hy : y ≠ ':' := h y (List.mem_cons_of_mem x (List.mem_cons_self y u))
    simp [secondIsColon, hy]

theorem replace_no_bslash (s : Str) : ∀ c ∈ replace_backslashes s, c ≠ '\\' := by
  intro c hc
  rw [replace_backslashes] at hc
  obtain ⟨a, _, he⟩ := List.mem_map.mp hc
  by_cases ha : a = '\\'
  · rw [if_pos ha] at he
    rw [← he]
    decide
  · rw [if_neg ha] at he
    rw [← he]
    exact ha

theorem replace_backslashes_id {u : Str} (h : ∀ c ∈ u, c ≠ '\\') :
    replace_backslashes u = u := by
  rw [replace_backslashes]
  induction u with
  | nil => rfl
  | cons a t ih =>
    rw [List.map_cons, if_neg (h a (List.mem_cons_self a t)),
      ih fun c hc => h c (List.mem_cons_of_mem a hc)]

theorem splitAll_win_eq_slash {t : Str} (h : ∀ c ∈ t, c ≠ '\\') :
    splitAllP isWinSep t = splitAllP (fun c => (c = '/' : Bool)) t := by
  refine splitAllP_congr fun c hc => ?_
  have hcb : c ≠ '\\' := h c hc
  rw [isWinSep]
  simp [hcb]

theorem winSegsOf_eq_posixSegsOf {t : Str} (h : ∀ c ∈ t, c ≠ '\\') :
    winSegsOf t = posixSegsOf t := by
  rw [winSegsOf, posixSegsOf, splitAll_win_eq_slash h]

/-! ### Appending segments -/

theorem mountStr_cons_join (l : Char) (S : List Str) :
    mountStr l S = '/' :: joinSep '/' (("mnt").toList :: [l] :: S) := by
  rw [mountStr, posixRender, if_neg (by simp)]
  rfl

theorem mountStr_append (l : Char) (S : List Str) (seg : Str) :
    mountStr l (S ++ [seg]) = mountStr l S ++ '/' :: seg := by
  rw [mountStr_cons_join, mountStr_cons_join]
  have h3 : ("mnt").toList :: [l] :: (S ++ [seg]) =
      (("mnt").toList :: [l] :: S) ++ [seg] := by simp
  rw [h3, joinSep_append_singleton, if_neg (by simp)]
  simp

theorem joinSep_ne_nil {sep : Char} {S : List Str} (hne : S ≠ [])
    (hhead : ∀ sg ∈ S, sg ≠ []) : joinSep sep S ≠ [] := by
  rcases S with _ | ⟨a, _ | ⟨b, r⟩⟩
  · exact absurd rfl hne
  · exact hhead a (List.mem_cons_self a [])
  · show a ++ sep :: joinSep sep (b :: r) ≠ []
    simp

theorem getLast?_joinSep {S : List Str}
    (hS : ∀ sg ∈ S, sg ≠ [] ∧ ∀ c ∈ sg, isWinSep c = false) (hne : S ≠ []) :
    ∃ c, (joinSep '\\' S).getLast? = some c ∧ isWinSep c = false := by
  induction S with
  | nil => exact absurd rfl hne
  | cons a r ih =>
    rcases r with _ | ⟨b, r2⟩
    · obtain ⟨h1, h2⟩ := hS a (List.mem_cons_self a [])
      refine ⟨a.getLast h1, ?_, h2 _ (List.getLast_mem h1)⟩
      exact List.getLast?_eq_getLast a h1
    · obtain ⟨c, hc1, hc2⟩ := ih (fun sg hsg => hS sg (List.mem_cons_of_mem a hsg)) (by simp)
      refine ⟨c, ?_, hc2⟩
      have hjoin : joinSep '\\' (a :: b :: r2) =
          a ++ ['\\'] ++ joinSep '\\' (b :: r2) := by
        show a ++ '\\' :: joinSep '\\' (b :: r2) = _
        simp
      have hne2 : joinSep '\\' (b :: r2) ≠ [] :=
        joinSep_ne_nil (by simp) (fun sg hsg => (hS sg (List.mem_cons_of_mem a hsg)).1)
      rw [hjoin, List.getLast?_append_of_ne_nil _ hne2, hc1]

theorem mem_joinSep {sep c : Char} {S : List Str} (h : c ∈ joinSep sep S) :
    c = sep ∨ ∃ sg ∈ S, c ∈ sg := by
  induction S with
  | nil => simp [joinSep] at h
  | cons a r ih =>
    rcases r with _ | ⟨b, r2⟩
    · exact Or.inr ⟨a, List.mem_cons_self a [], h⟩
    · rw [show joinSep sep (a :: b :: r2) = a ++ sep :: joinSep sep (b :: r2) from rfl] at h
      rcases List.mem_append.mp h with h1 | h2
      · exact Or.inr ⟨a, List.mem_cons_self a (b :: r2), h1⟩
      · rcases List.mem_cons.mp h2 with rfl | h3
        · exact Or.inl rfl
        · rcases ih h3 with h4 | ⟨sg, hsg, hcsg⟩
          · exact Or.inl h4
          · exact Or.inr ⟨sg, List.mem_cons_of_mem a hsg, hcsg⟩

theorem mem_mountStr {c l : Char} {S : List Str} (h : c ∈ mountStr l S) :
    c ∈ ("/mnt/").toList ∨ c = l ∨ c = '/' ∨ ∃ sg ∈ S, c ∈ sg := by
  rw [mountStr_cons_join] at h
  rcases List.mem_cons.mp h with rfl | h2
  · exact Or.inr (Or.inr (Or.inl rfl))
  · rcases mem_joinSep h2 with rfl | ⟨sg, hsg, hcsg⟩
    · exact Or.inr (Or.inr (Or.inl rfl))
    · rcases List.mem_cons.mp hsg with rfl | h3
      · refine Or.inl ?_
        simp at hcsg ⊢
        tauto
      · rcases List.mem_cons.mp h3 with rfl | h4
        · exact Or.inr (Or.inl (List.mem_singleton.mp hcsg))
        · exact Or.inr (Or.inr (Or.inr ⟨sg, h4, hcsg⟩))

theorem posixSegsOf_slash_join {S : List Str} (hS : goodSegs S) :
    posixSegsOf ('/' :: joinSep '/' S) = S := by
  rcases S with _ | ⟨b, S2⟩
  · rfl
  · rw [posixSegsOf, splitAllP_cons_of_sep (by simp), filterSegs_nil_cons,
      splitAllP_joinSep (by simp) (b :: S2) (by simp) (goodSegs_slash_free hS)]
    exact filterSegs_eq_self fun x hx => ⟨(hS x hx).1, (hS x hx).2.1⟩

theorem replace_joinSep {S : List Str} (h : ∀ sg ∈ S, ∀ c ∈ sg, c ≠ '\\') :
    replace_backslashes (joinSep '\\' S) = joinSep '/' S := by
  induction S with
  | nil => rfl
  | cons a r ih =>
    rcases r with _ | ⟨b, r2⟩
    · exact replace_backslashes_id (h a (List.mem_cons_self a []))
    · show replace_backslashes (a ++ '\\' :: joinSep '\\' (b :: r2)) = _
      rw [replace_backslashes, List.map_append, List.map_cons]
      rw [show (if ('\\' : Char) = '\\' then '/' else '\\') = '/' from rfl]
      rw [show List.map (fun c => if c = '\\' then '/' else c) a =
        replace_backslashes a from rfl]
      rw [show List.map (fun c => if c = '\\' then '/' else c) (joinSep '\\' (b :: r2)) =
        replace_backslashes (joinSep '\\' (b :: r2)) from rfl]
      rw [replace_backslashes_id (h a (List.mem_cons_self a (b :: r2))),
        ih fun sg hsg => h sg (List.mem_cons_of_mem a hsg)]
      rfl

theorem posixCombine_goodSeg {acc : PosixParts} {sg : Str} (h : goodSeg sg) :
    posixCombine acc sg = { acc with segs := acc.segs ++ [sg] } := by
  have hp : posixParse sg = ⟨0, [sg]⟩ := by
    obtain ⟨h1, h2, h3⟩ := h
    rw [posixParse]
    have hz : rootCountOf sg = 0 := by
      rcases sg with _ | ⟨c, u⟩
      · exact absurd rfl h1
      · have hc : c ≠ '/' := h3 c (List.mem_cons_self c u)
        have hz2 : leadSlashes (c :: u) = 0 := by
          simp only [leadSlashes, if_neg hc]
        rw [rootCountOf, hz2]
        rfl
    have hsegs : posixSegsOf sg = [sg] := by
      rw [posixSegsOf, splitAllP_all_false (fun c hc => by simp [h3 c hc]),
        filterSegs_cons_keep h1 h2]
      rfl
    rw [hz, hsegs]
  simp only [posixCombine, hp]
  rw [if_neg (by simp)]

theorem foldl_posixCombine_good {L : List Str} (hL : ∀ sg ∈ L, goodSeg sg) :
    ∀ acc : PosixParts, L.foldl posixCombine acc = { acc with segs := acc.segs ++ L } := by
  induction L with
  | nil => intro acc; simp
  | cons sg L2 ih =>
    intro acc
    rw [List.foldl_cons, posixCombine_goodSeg (hL sg (List.mem_cons_self sg L2)),
      ih (fun x hx => hL x (List.mem_cons_of_mem sg hx))]
    simp

/-! ### The NT host -/

theorem not_winSep_ne {c : Char} (h : isWinSep c = false) : c ≠ '/' ∧ c ≠ '\\' := by
  rw [isWinSep] at h
  constructor <;> · intro hc; subst hc; simp at h

theorem winSegsOf_slash_join {W : List Str}
    (hW : ∀ sg ∈ W, sg ≠ [] ∧ sg ≠ ['.'] ∧ ∀ c ∈ sg, isWinSep c = false) :
    winSegsOf ('/' :: joinSep '/' W) = W := by
  rcases W with _ | ⟨b, W2⟩
  · rfl
  · rw [winSegsOf, splitAllP_cons_of_sep (show isWinSep '/' = true from rfl),
      filterSegs_nil_cons,
      splitAllP_joinSep (show isWinSep '/' = true from rfl) (b :: W2) (by simp)
        (fun x hx c hc => (hW x hx).2.2 c hc)]
    exact filterSegs_eq_self fun x hx => ⟨(hW x hx).1, (hW x hx).2.1⟩

theorem winSegsOf_slash_cons (t : Str) : winSegsOf ('/' :: t) = winSegsOf t := by
  rw [winSegsOf, winSegsOf, splitAllP_cons_of_sep (show isWinSep '/' = true from rfl),
    filterSegs_nil_cons]

theorem posixParse_goodSeg {t : Str} (h : goodSeg t) : posixParse t = ⟨0, [t]⟩ := by
  obtain ⟨h1, h2, h3⟩ := h
  rw [posixParse]
  have hz : rootCountOf t = 0 := by
    rcases t with _ | ⟨c, u⟩
    · exact absurd rfl h1
    · have hc : c ≠ '/' := h3 c (List.mem_cons_self c u)
      have hz2 : leadSlashes (c :: u) = 0 := by
        simp only [leadSlashes, if_neg hc]
      rw [rootCountOf, hz2]
      rfl
  have hsegs : posixSegsOf t = [t] := by
    rw [posixSegsOf, splitAllP_all_false (fun c hc => by simp [h3 c hc]),
      filterSegs_cons_keep h1 h2]
    rfl
  rw [hz, hsegs]

/-! ### Output composition helpers -/

theorem wslOutput_of_create {os : Os} {s : Str} {st : WState}
    (h : createOn os s = .ok st) :
    wslOutput os s = (wsl_path st).map Prod.fst := by
  rw [wslOutput, h]
  rfl

theorem winOutput_of_create {os : Os} {s : Str} {st : WState}
    (h : createOn os s = .ok st) :
    winOutput os s = (win_path st).map Prod.fst := by
  rw [winOutput, h]
  rfl

theorem wslOutput_of_create_err {os : Os} {s : Str} {e : Str}
    (h : createOn os s = .error e) : wslOutput os s = .error e := by
  rw [wslOutput, h]
  rfl

theorem joinWslOutput_eq {s seg : Str} {st st2 : WState}
    (h : createOn Os.posix s = .ok st) (h2 : truediv st seg = .ok st2) :
    joinWslOutput s seg = (wsl_path st2).map Prod.fst := by
  rw [joinWslOutput, h]
  show (truediv st seg).bind _ = _
  rw [h2]
  rfl

theorem joinWinOutput_eq {s seg : Str} {st st2 : WState}
    (h : createOn Os.posix s = .ok st) (h2 : truediv st seg = .ok st2) :
    joinWinOutput s seg = (win_path st2).map Prod.fst := by
  rw [joinWinOutput, h]
  show (truediv st seg).bind _ = _
  rw [h2]
  rfl

theorem segs_no_bslash {s : Str} {n : Nat} :
    ∀ sg ∈ posixSegsOf ((replace_backslashes s).drop n), ∀ c ∈ sg, c ≠ '\\' := by
  intro sg hsg c hc
  have h1 := posixSegsOf_subset sg hsg c hc
  exact replace_no_bslash s c (List.mem_of_mem_drop h1)

theorem goodWin_of_good_noBs {S : List Str} (hS : goodSegs S)
    (hbs : ∀ sg ∈ S, ∀ c ∈ sg, c ≠ '\\') :
    ∀ sg ∈ S, sg ≠ [] ∧ sg ≠ ['.'] ∧ ∀ c ∈ sg, isWinSep c = false := by
  intro sg hsg
  obtain ⟨h1, h2, h3⟩ := hS sg hsg
  refine ⟨h1, h2, fun c hc => ?_⟩
  rw [isWinSep]
  simp [h3 c hc, hbs sg hsg c hc]

theorem win_append_formula {d : Char} {S : List Str} {seg : Str}
    (hS : ∀ sg ∈ S, sg ≠ [] ∧ ∀ c ∈ sg, isWinSep c = false) :
    d :: ':' :: '\\' :: joinSep '\\' (S ++ [seg]) =
      (if (d :: ':' :: '\\' :: joinSep '\\' S).getLast? = some '\\'
       then (d :: ':' :: '\\' :: joinSep '\\' S) ++ seg
       else (d :: ':' :: '\\' :: joinSep '\\' S) ++ '\\' :: seg) := by
  rcases hs : S with _ | ⟨b, S2⟩
  · rw [if_pos (show (d :: ':' :: '\\' :: joinSep '\\' ([] : List Str)).getLast? =
      some '\\' from rfl)]
    rfl
  · rw [← hs]
    have hne : S ≠ [] := by rw [hs]; simp
    obtain ⟨c, hc1, hc2⟩ := getLast?_joinSep hS hne
    have hlast : (d :: ':' :: '\\' :: joinSep '\\' S).getLast? = some c := by
      rw [show d :: ':' :: '\\' :: joinSep '\\' S =
        [d, ':', '\\'] ++ joinSep '\\' S from rfl]
      rw [List.getLast?_append_of_ne_nil _
        (joinSep_ne_nil hne fun sg hsg => (hS sg hsg).1), hc1]
    rw [hlast, if_neg (by
      intro hcon
      have : c = '\\' := by injection hcon
      rw [this] at hc2
      simp [isWinSep] at hc2)]
    rw [joinSep_append_singleton, if_neg hne]
    simp

theorem posixSegsOf_slash_cons (t : Str) : posixSegsOf ('/' :: t) = posixSegsOf t := by
  rw [posixSegsOf, posixSegsOf, splitAllP_cons_of_sep (by simp), filterSegs_nil_cons]

/-! ### Renders are fixed points of parsing -/

theorem leadSlashes_slash_cons (t : Str) : leadSlashes ('/' :: t) = leadSlashes t + 1 := by
  simp [leadSlashes]

theorem leadSlashes_replicate (r : Nat) (x : Str) :
    leadSlashes (List.replicate r '/' ++ x) = r + leadSlashes x := by
  induction r with
  | zero => simp
  | succ n ih =>
    rw [List.replicate_succ, List.cons_append, leadSlashes_slash_cons, ih]
    omega

theorem leadSlashes_good_join {S : List Str} (hS : goodSegs S) :
    leadSlashes (joinSep '/' S) = 0 := by
  rcases S with _ | ⟨s0, rest⟩
  · rfl
  · obtain ⟨h1, _, h3⟩ := hS s0 (List.mem_cons_self s0 rest)
    rcases s0 with _ | ⟨c, cs⟩
    · exact absurd rfl h1
    · have hc : c ≠ '/' := h3 c (List.mem_cons_self c cs)
      rcases rest with _ | ⟨b, r2⟩
      · show leadSlashes (c :: cs) = 0
        simp only [leadSlashes, if_neg hc]
      · show leadSlashes ((c :: cs) ++ '/' :: joinSep '/' (b :: r2)) = 0
        rw [List.cons_append]
        simp only [leadSlashes, if_neg hc]

theorem posixSegsOf_joinSep {S : List Str} (hS : goodSegs S) :
    posixSegsOf (joinSep '/' S) = S := by
  rcases S with _ | ⟨s0, rest⟩
  · rfl
  · rw [posixSegsOf, splitAllP_joinSep (by simp) (s0 :: rest) (by simp)
      (goodSegs_slash_free hS)]
    exact filterSegs_eq_self fun x hx => ⟨(hS x hx).1, (hS x hx).2.1⟩

theorem rootCountOf_le_two (s : Str) : rootCountOf s ≤ 2 := by
  rw [rootCountOf]
  split
  · omega
  · split
    · omega
    · omega

theorem rootCountOf_replicate_join {r : Nat} {S : List Str} (hr : r ≤ 2)
    (hS : goodSegs S) :
    rootCountOf (List.replicate r '/' ++ joinSep '/' S) = r := by
  have hl : leadSlashes (List.replicate r '/' ++ joinSep '/' S) = r := by
    rw [leadSlashes_replicate, leadSlashes_good_join hS]
    omega
  rw [rootCountOf, hl]
  interval_cases r <;> simp

theorem posixSegsOf_replicate (r : Nat) (x : Str) :
    posixSegsOf (List.replicate r '/' ++ x) = posixSegsOf x := by
  induction r with
  | zero => simp
  | succ n ih =>
    rw [List.replicate_succ, List.cons_append, posixSegsOf_slash_cons, ih]

theorem posixRender_replicate {r : Nat} {S : List Str} (h : ¬(r = 0 ∧ S = [])) :
    posixRender ⟨r, S⟩ = List.replicate r '/' ++ joinSep '/' S := by
  rw [posixRender, if_neg h]

theorem posixParse_posixRender {q : PosixParts} (hr : q.root ≤ 2)
    (hq : goodSegs q.segs) : posixParse (posixRender q) = q := by
  rcases q with ⟨r, S⟩
  simp only at hr hq
  by_cases h0 : r = 0 ∧ S = []
  · obtain ⟨rfl, rfl⟩ := h0
    rfl
  · rw [posixRender_replicate h0, posixParse, rootCountOf_replicate_join hr hq,
      posixSegsOf_replicate, posixSegsOf_joinSep hq]

theorem parse_render_parse (s : Str) :
    posixParse (posixRender (posixParse s)) = posixParse s :=
  posixParse_posixRender (rootCountOf_le_two s) posixSegsOf_good

/-! ### The `_normalize_path` gate -/

theorem get_drive_letter_mnt_some {r : Str} (h : is_mnt r = true) :
    get_drive_letter_mnt r = some ((r.getD 5 ' ').toLower) := by
  obtain ⟨l, t, heq, hl, ht⟩ := (is_mnt_iff _).mp h
  have h5 : r.getD 5 ' ' = l := by rw [heq]; rfl
  rw [h5, heq]
  exact get_drive_letter_mnt_eq hl ht

theorem get_drive_letter_nt_some {r : Str} (h : is_nt r = true) :
    get_drive_letter_nt r = some ((r.getD 0 ' ').toLower) := by
  obtain ⟨a, t, heq, ha⟩ := (is_nt_iff _).mp h
  have h0 : r.getD 0 ' ' = a := by rw [heq]; rfl
  rw [h0, heq]
  exact get_drive_letter_nt_eq ha

theorem normalize_ok {os : Os} {r : Str}
    (h : is_mnt r = true ∨ is_nt r = true) :
    ∃ v, normalize_path os r = .ok v := by
  by_cases hm : is_mnt r = true
  · rcases os with _ | _
    · refine ⟨((r.getD 5 ' ').toLower).toUpper :: ':' :: r.drop 7, ?_⟩
      rw [normalize_path, if_pos hm, if_neg (by decide),
        get_drive_letter_mnt_some hm]
    · exact ⟨r, by rw [normalize_path, if_pos hm, if_pos rfl]⟩
  · have hn : is_nt r = true := h.resolve_left hm
    rcases os with _ | _
    · exact ⟨r, by rw [normalize_path, if_neg hm, if_pos hn, if_pos rfl]⟩
    · refine ⟨("/mnt/").toList ++ ((r.getD 0 ' ').toLower) :: r.drop 2, ?_⟩
      rw [normalize_path, if_neg hm, if_pos hn, if_neg (by decide),
        get_drive_letter_nt_some hn]

theorem normalize_unsupported {os : Os} {r : Str}
    (h1 : is_mnt r = false) (h2 : is_nt r = false) :
    normalize_path os r = .error msg_unsupported := by
  rw [normalize_path, if_neg (by rw [h1]; simp), if_neg (by rw [h2]; simp)]

theorem createOn_eq_init {os : Os} {s : Str}
    (h : is_mnt (replace_backslashes s) = true ∨
      is_nt (replace_backslashes s) = true) :
    createOn os s = init_views (host_as_posix os s) := by
  obtain ⟨v, hv⟩ := @normalize_ok os _ h
  rw [createOn, hv]
  rfl

/-! ### `_init_views` classification -/

theorem init_views_nt {p : Str} (h : is_nt p = true) :
    init_views p = .ok (ntStateOf p) := by
  rw [init_views, if_pos h, get_drive_letter_nt_some h]
  rfl

theorem init_views_mnt {p : Str} (hn : is_nt p = false) (hm : is_mnt p = true) :
    init_views p = .ok (mntStateOf p) := by
  rw [init_views, if_neg (by rw [hn]; simp), if_pos hm,
    get_drive_letter_mnt_some hm]
  rfl

theorem init_views_err {p : Str} (hn : is_nt p = false) (hm : is_mnt p = false) :
    init_views p = .error msg_init_views := by
  rw [init_views, if_neg (by rw [hn]; simp), if_neg (by rw [hm]; simp)]

/-! ### Constructor characterization on the POSIX host -/

theorem create_posix_gate {s : Str} {st : WState}
    (hc : createOn Os.posix s = .ok st) :
    is_mnt (replace_backslashes s) = true ∨
      is_nt (replace_backslashes s) = true := by
  by_contra hcon
  push_neg at hcon
  rw [create_unsupported (by simpa using hcon.1) (by simpa using hcon.2)] at hc
  exact absurd hc (by simp)

theorem create_posix_cases {s : Str} {st : WState}
    (hc : createOn Os.posix s = .ok st) :
    (is_nt (posixRender (posixParse s)) = true ∧
      st = ntStateOf (posixRender (posixParse s))) ∨
    (is_nt (posixRender (posixParse s)) = false ∧
      is_mnt (posixRender (posixParse s)) = true ∧
      st = mntStateOf (posixRender (posixParse s))) := by
  have hg := create_posix_gate hc
  rw [createOn_eq_init hg] at hc
  by_cases hn : is_nt (posixRender (posixParse s)) = true
  · rw [show host_as_posix Os.posix s = posixRender (posixParse s) from rfl,
      init_views_nt hn] at hc
    exact Or.inl ⟨hn, (Except.ok.inj hc).symm⟩
  · have hn2 : is_nt (posixRender (posixParse s)) = false := by simpa using hn
    by_cases hm : is_mnt (posixRender (posixParse s)) = true
    · rw [show host_as_posix Os.posix s = posixRender (posixParse s) from rfl,
        init_views_mnt hn2 hm] at hc
      exact Or.inr ⟨hn2, hm, (Except.ok.inj hc).symm⟩
    · rw [show host_as_posix Os.posix s = posixRender (posixParse s) from rfl,
        init_views_err hn2 (by simpa using hm)] at hc
      exact absurd hc (by simp)

/-! ### Shapes of classified renders -/

theorem mntStateOf_mountStr {l : Char} {S : List Str} (hl : l.isAlpha = true)
    (hS : goodSegs S) : mntStateOf (mountStr l S) = mkMState l S := by
  rw [mntStateOf, mkMState, posixParse_mountStr hl hS]
  have hg5 : (mountStr l S).getD 5 ' ' = l := by rw [mountStr_eq]; rfl
  rw [hg5]

theorem mnt_render_shape {q : PosixParts} (hroot : q.root ≤ 2)
    (hq : goodSegs q.segs) (hm : is_mnt (posixRender q) = true) :
    ∃ l ST, l.isAlpha = true ∧ goodSegs ST ∧
      posixRender q = mountStr l ST ∧
      (posixRender q).getD 5 ' ' = l ∧
      q = ⟨1, ("mnt").toList :: [l] :: ST⟩ := by
  obtain ⟨l, t, heq, hl, ht⟩ := (is_mnt_iff _).mp hm
  have hparse : posixParse (posixRender q) = q := posixParse_posixRender hroot hq
  rw [heq, posixParse, rootCountOf_mnt, posixSegsOf_mnt hl ht] at hparse
  refine ⟨l, posixSegsOf t, hl, posixSegsOf_good, ?_, ?_, hparse.symm⟩
  · rw [show mountStr l (posixSegsOf t) =
      posixRender ⟨1, ("mnt").toList :: [l] :: posixSegsOf t⟩ from rfl, hparse]
  · rw [heq]
    rfl

theorem joinSep_head_shape {S0 : List Str} {a : Char} {u : Str}
    (hgood : goodSegs S0) (hj : joinSep '/' S0 = a :: ':' :: u) :
    ∃ h2 F, S0 = (a :: ':' :: h2) :: F := by
  rcases S0 with _ | ⟨s0, rest⟩
  · exact absurd hj (by simp [joinSep])
  · obtain ⟨h1, _, _⟩ := hgood s0 (List.mem_cons_self s0 rest)
    rcases hs0 : s0 with _ | ⟨c, _ | ⟨d, cs⟩⟩
    · exact absurd hs0 h1
    · rcases rest with _ | ⟨b, r2⟩
      · rw [hs0] at hj
        exact absurd hj (by simp [joinSep])
      · rw [hs0] at hj
        have hj2 : c :: '/' :: joinSep '/' (b :: r2) = a :: ':' :: u := hj
        have hcolon : ('/' : Char) = ':' :=
          (List.cons_eq_cons.mp (List.cons_eq_cons.mp hj2).2).1
        exact absurd hcolon (by decide)
    · rcases rest with _ | ⟨b, r2⟩
      · rw [hs0] at hj
        obtain ⟨hc, hrest⟩ := List.cons_eq_cons.mp hj
        obtain ⟨hd, _⟩ := List.cons_eq_cons.mp hrest
        exact ⟨cs, [], by rw [hc, hd]⟩
      · rw [hs0] at hj
        have hj2 : c :: d :: (cs ++ '/' :: joinSep '/' (b :: r2)) = a :: ':' :: u := hj
        obtain ⟨hc, hrest⟩ := List.cons_eq_cons.mp hj2
        obtain ⟨hd, _⟩ := List.cons_eq_cons.mp hrest
        exact ⟨cs, b :: r2, by rw [hc, hd]⟩

theorem nt_render_shape {q : PosixParts} (hroot : q.root ≤ 2)
    (hq : goodSegs q.segs) (hn : is_nt (posixRender q) = true) :
    ∃ a h F, a.isAlpha = true ∧ (∀ c ∈ h, c ≠ '/') ∧ goodSegs F ∧
      posixRender q = pN a h F ∧ q = ⟨0, (a :: ':' :: h) :: F⟩ := by
  obtain ⟨a, u, heq, ha⟩ := (is_nt_iff _).mp hn
  have hparse : posixParse (posixRender q) = q := posixParse_posixRender hroot hq
  have hqroot : q.root = 0 := by
    rw [← hparse, heq]
    show rootCountOf (a :: ':' :: u) = 0
    have hl : leadSlashes (a :: ':' :: u) = 0 := by
      simp only [leadSlashes, if_neg (alpha_ne_slash ha)]
    rw [rootCountOf, hl]
    simp
  rcases q with ⟨r, S0⟩
  simp only at hqroot hq
  subst hqroot
  by_cases hnil : S0 = []
  · subst hnil
    rw [show posixRender ⟨0, ([] : List Str)⟩ = ['.'] from rfl] at heq
    exact absurd heq (by simp)
  · have hrender : posixRender ⟨0, S0⟩ = joinSep '/' S0 := by
      rw [posixRender, if_neg (by simp [hnil])]
      rfl
    have hj : joinSep '/' S0 = a :: ':' :: u := by rw [← hrender, heq]
    obtain ⟨h2, F, hS0⟩ := joinSep_head_shape hq hj
    have hmem : (a :: ':' :: h2) ∈ S0 := by
      rw [hS0]
      exact List.mem_cons_self _ _
    obtain ⟨_, _, g3⟩ := hq _ hmem
    refine ⟨a, h2, F, ha, ?_, ?_, ?_, ?_⟩
    · intro c hcm
      exact g3 c (List.mem_cons_of_mem _ (List.mem_cons_of_mem _ hcm))
    · intro t ht
      exact hq t (by rw [hS0]; exact List.mem_cons_of_mem _ ht)
    · rw [hrender, hS0]
      rfl
    · rw [hS0]

/-! ### The Windows-classified family of states -/

theorem pN_eq (a : Char) (h : Str) (F : List Str) :
    pN a h F = a :: ':' :: ntTail h F := by
  rw [pN, ntTail]
  rcases F with _ | ⟨b, r⟩
  · simp [joinSep]
  · show (a :: ':' :: h) ++ '/' :: joinSep '/' (b :: r) = _
    rw [if_neg (by simp)]
    simp

theorem winParse_nt (a : Char) (u : Str) :
    winParse (a :: ':' :: u) =
      { drive := [a, ':'],
        root := match u with | c :: _ => isWinSep c | [] => false,
        segs := winSegsOf u } := rfl

theorem winPartsTail_drive {w : WinParts} (h : w.drive ≠ []) :
    winPartsTail w = w.segs := by
  rw [winPartsTail, winPartsList, if_pos (Or.inl h)]
  rfl

theorem posixOfComps_mnt_comps {d : Char} {W : List Str} (hd : d.isAlpha = true)
    (hW : ∀ sg ∈ W, sg ≠ [] ∧ sg ≠ ['.'] ∧ ∀ c ∈ sg, isWinSep c = false) :
    posixOfComps (("/mnt").toList :: [d] :: W) =
      ⟨1, ("mnt").toList :: [d] :: W⟩ := by
  rw [show posixOfComps (("/mnt").toList :: [d] :: W) =
    ([d] :: W).foldl posixCombine (posixParse (("/mnt").toList)) from rfl]
  rw [show posixParse (("/mnt").toList) = ⟨1, [("mnt").toList]⟩ from rfl]
  rw [foldl_posixCombine_good]
  · rfl
  · intro sg hsg
    rcases List.mem_cons.mp hsg with rfl | h2
    · exact ⟨by simp, by simp [alpha_ne_dot hd], fun c hc => by
        rcases List.mem_singleton.mp hc with rfl
        exact alpha_ne_slash hd⟩
    · obtain ⟨g1, g2, g3⟩ := hW sg h2
      exact ⟨g1, g2, fun c hc => (not_winSep_ne (g3 c hc)).1⟩

theorem wsl_path_nt {a : Char} {u : Str} (ha : a.isAlpha = true) :
    wsl_path (ntStateOf (a :: ':' :: u)) =
      .ok (mountStr a.toLower (winSegsOf u),
        ⟨a :: ':' :: u,
          some ⟨1, ("mnt").toList :: [a.toLower] :: winSegsOf u⟩,
          some (winParse (a :: ':' :: u)), a.toLower⟩) := by
  have he : ensure_wsl_view (ntStateOf (a :: ':' :: u)) =
      .ok ⟨a :: ':' :: u,
        some (posixOfComps (("/mnt").toList :: [a.toLower] ::
          winPartsTail (winParse (a :: ':' :: u)))),
        some (winParse (a :: ':' :: u)), a.toLower⟩ := rfl
  have hview : winPartsTail (winParse (a :: ':' :: u)) = winSegsOf u := by
    rw [winParse_nt, winPartsTail_drive (by simp)]
  rw [wsl_path, he, hview,
    posixOfComps_mnt_comps (isAlpha_toLower ha) winSegsOf_good]
  rfl

theorem win_path_nt (p : Str) :
    win_path (ntStateOf p) = .ok (winRender (winParse p), ntStateOf p) := rfl

theorem wsl_path_ntCached (a : Char) (h : Str) (F : List Str) :
    wsl_path (ntCachedOf a h F) =
      .ok (mountStr a.toLower (winSegsOf (ntTail h F)), ntCachedOf a h F) := rfl

theorem win_path_ntCached (a : Char) (h : Str) (F : List Str) :
    win_path (ntCachedOf a h F) =
      .ok (winRender (winParse (pN a h F)), ntCachedOf a h F) := rfl

theorem wsl_path_ntA {a : Char} {h : Str} {F : List Str} (ha : a.isAlpha = true) :
    wsl_path (ntStateOf (pN a h F)) =
      .ok (mountStr a.toLower (winSegsOf (ntTail h F)), ntCachedOf a h F) := by
  have hp := pN_eq a h F
  have hst : (⟨a :: ':' :: ntTail h F,
      some ⟨1, ("mnt").toList :: [a.toLower] :: winSegsOf (ntTail h F)⟩,
      some (winParse (a :: ':' :: ntTail h F)), a.toLower⟩ : WState) =
      ntCachedOf a h F := by
    show _ = (⟨pN a h F,
      some ⟨1, ("mnt").toList :: [a.toLower] :: winSegsOf (ntTail h F)⟩,
      some (winParse (pN a h F)), ((pN a h F).getD 0 ' ').toLower⟩ : WState)
    rw [hp]
    rfl
  rw [hp, wsl_path_nt ha, hst]

theorem goodSeg_pN_head {a : Char} {h : Str} (ha : a.isAlpha = true)
    (hh : ∀ c ∈ h, c ≠ '/') : goodSeg (a :: ':' :: h) := by
  refine ⟨by simp, by simp, ?_⟩
  intro c hc
  rcases List.mem_cons.mp hc with rfl | hc2
  · exact alpha_ne_slash ha
  · rcases List.mem_cons.mp hc2 with rfl | hc3
    · decide
    · exact hh c hc3

theorem goodSegs_pN {a : Char} {h : Str} {F : List Str} (ha : a.isAlpha = true)
    (hh : ∀ c ∈ h, c ≠ '/') (hF : goodSegs F) :
    goodSegs ((a :: ':' :: h) :: F) := by
  intro t ht
  rcases List.mem_cons.mp ht with rfl | h2
  · exact goodSeg_pN_head ha hh
  · exact hF t h2

theorem posixParse_pN {a : Char} {h : Str} {F : List Str} (ha : a.isAlpha = true)
    (hh : ∀ c ∈ h, c ≠ '/') (hF : goodSegs F) :
    posixParse (pN a h F) = ⟨0, (a :: ':' :: h) :: F⟩ := by
  have hgood := goodSegs_pN ha hh hF
  rw [pN, posixParse]
  have hr : rootCountOf (joinSep '/' ((a :: ':' :: h) :: F)) = 0 := by
    rw [rootCountOf, leadSlashes_good_join hgood]
    simp
  rw [hr, posixSegsOf_joinSep hgood]

theorem is_nt_pN {a : Char} (ha : a.isAlpha = true) (h : Str) (F : List Str) :
    is_nt (pN a h F) = true := by
  rw [pN_eq]
  simp [is_nt, ha]

theorem truediv_pN {a : Char} {h : Str} {F : List Str} {seg : Str}
    (ha : a.isAlpha = true) (hh : ∀ c ∈ h, c ≠ '/') (hF : goodSegs F)
    (hp : plainSeg seg) :
    truediv (ntStateOf (pN a h F)) seg =
      .ok (ntStateOf (pN a h (F ++ [seg]))) := by
  rw [truediv, show (ntStateOf (pN a h F)).pathStr = pN a h F from rfl,
    posixParse_pN ha hh hF, posixCombine_goodSeg (goodSeg_of_plain hp)]
  show init_views (posixRender ⟨0, (a :: ':' :: h) :: (F ++ [seg])⟩) = _
  have hre : posixRender ⟨0, (a :: ':' :: h) :: (F ++ [seg])⟩ =
      pN a h (F ++ [seg]) := by
    rw [posixRender, if_neg (by simp)]
    rfl
  rw [hre]
  exact init_views_nt (is_nt_pN ha h (F ++ [seg]))

/-! ### Canonical forms of reachable states -/

theorem posixCombine_bound {acc : PosixParts} (hroot : acc.root ≤ 2)
    (hacc : goodSegs acc.segs) (seg : Str) :
    (posixCombine acc seg).root ≤ 2 ∧ goodSegs (posixCombine acc seg).segs := by
  simp only [posixCombine]
  split
  · exact ⟨rootCountOf_le_two seg, posixSegsOf_good⟩
  · refine ⟨hroot, ?_⟩
    intro t ht
    rcases List.mem_append.mp ht with h1 | h2
    · exact hacc t h1
    · exact posixSegsOf_good t h2

theorem init_views_render_canon {q : PosixParts} (hroot : q.root ≤ 2)
    (hq : goodSegs q.segs) {st : WState}
    (h : init_views (posixRender q) = .ok st) : Canon st := by
  by_cases hn : is_nt (posixRender q) = true
  · obtain ⟨a, h2, F, ha, hh, hF, hpn, _⟩ := nt_render_shape hroot hq hn
    rw [init_views_nt hn] at h
    refine Or.inr ⟨a, h2, F, ha, hh, hF, Or.inl ?_⟩
    rw [← hpn]
    exact (Except.ok.inj h).symm
  · have hn2 : is_nt (posixRender q) = false := by simpa using hn
    by_cases hm : is_mnt (posixRender q) = true
    · obtain ⟨l, ST, hl, hST, hps, _, _⟩ := mnt_render_shape hroot hq hm
      rw [init_views_mnt hn2 hm] at h
      refine Or.inl ⟨l, ST, hl, hST, Or.inl ?_⟩
      rw [← mntStateOf_mountStr hl hST, ← hps]
      exact (Except.ok.inj h).symm
    · rw [init_views_err hn2 (by simpa using hm)] at h
      exact absurd h (by simp)

theorem create_posix_canon {s : Str} {st : WState}
    (hc : createOn Os.posix s = .ok st) : Canon st := by
  have hg := create_posix_gate hc
  rw [createOn_eq_init hg] at hc
  exact init_views_render_canon (q := posixParse s) (rootCountOf_le_two s)
    posixSegsOf_good hc

theorem canon_parse {st : WState} (hcanon : Canon st) :
    ∃ q : PosixParts, posixParse st.pathStr = q ∧ q.root ≤ 2 ∧ goodSegs q.segs := by
  rcases hcanon with ⟨l, S, hl, hS, hor⟩ | ⟨a, h2, F, ha, hh, hF, hor⟩
  · have hpath : st.pathStr = mountStr l S := by rcases hor with rfl | rfl <;> rfl
    refine ⟨⟨1, ("mnt").toList :: [l] :: S⟩, ?_, by norm_num, goodSegs_mntT hl hS⟩
    rw [hpath]
    exact posixParse_mountStr hl hS
  · have hpath : st.pathStr = pN a h2 F := by rcases hor with rfl | rfl <;> rfl
    refine ⟨⟨0, (a :: ':' :: h2) :: F⟩, ?_, by norm_num, goodSegs_pN ha hh hF⟩
    rw [hpath]
    exact posixParse_pN ha hh hF

theorem truediv_canon {st st2 : WState} {seg : Str}
    (hcanon : Canon st) (h : truediv st seg = .ok st2) : Canon st2 := by
  obtain ⟨q, hq, hr, hg⟩ := canon_parse hcanon
  rw [truediv, hq] at h
  obtain ⟨hr2, hg2⟩ := posixCombine_bound hr hg seg
  exact init_views_render_canon hr2 hg2 h

theorem wsl_path_canon {st : WState} (hcanon : Canon st) {v : Str} {st2 : WState}
    (h : wsl_path st = .ok (v, st2)) : Canon st2 := by
  rcases hcanon with ⟨l, S, hl, hS, hor⟩ | ⟨a, h2, F, ha, hh, hF, hor⟩
  · rcases hor with rfl | rfl
    · rw [wsl_path_mkM] at h
      exact Or.inl ⟨l, S, hl, hS,
        Or.inl (congrArg Prod.snd (Except.ok.inj h)).symm⟩
    · rw [wsl_path_mkF] at h
      exact Or.inl ⟨l, S, hl, hS,
        Or.inr (congrArg Prod.snd (Except.ok.inj h)).symm⟩
  · rcases hor with rfl | rfl
    · rw [wsl_path_ntA ha] at h
      exact Or.inr ⟨a, h2, F, ha, hh, hF,
        Or.inr (congrArg Prod.snd (Except.ok.inj h)).symm⟩
    · rw [wsl_path_ntCached] at h
      exact Or.inr ⟨a, h2, F, ha, hh, hF,
        Or.inr (congrArg Prod.snd (Except.ok.inj h)).symm⟩

theorem win_path_canon {st : WState} (hcanon : Canon st) {v : Str} {st2 : WState}
    (h : win_path st = .ok (v, st2)) : Canon st2 := by
  rcases hcanon with ⟨l, S, hl, hS, hor⟩ | ⟨a, h2, F, ha, hh, hF, hor⟩
  · rcases hor with rfl | rfl
    · rw [win_path_mkM] at h
      exact Or.inl ⟨l, S, hl, hS,
        Or.inr (congrArg Prod.snd (Except.ok.inj h)).symm⟩
    · rw [win_path_mkF] at h
      exact Or.inl ⟨l, S, hl, hS,
        Or.inr (congrArg Prod.snd (Except.ok.inj h)).symm⟩
  · rcases hor with rfl | rfl
    · rw [win_path_nt] at h
      exact Or.inr ⟨a, h2, F, ha, hh, hF,
        Or.inl (congrArg Prod.snd (Except.ok.inj h)).symm⟩
    · rw [win_path_ntCached] at h
      exact Or.inr ⟨a, h2, F, ha, hh, hF,
        Or.inr (congrArg Prod.snd (Except.ok.inj h)).symm⟩

theorem reachable_canon {st : WState} (h : Reachable st) : Canon st := by
  induction h with
  | create s stt hc => exact create_posix_canon hc
  | join st seg st2 _ hjoin ih => exact truediv_canon ih hjoin
  | accWsl st v st2 _ hacc ih => exact wsl_path_canon ih hacc
  | accWin st v st2 _ hacc ih => exact win_path_canon ih hacc

/-! ### Output helpers -/

theorem nt_raw_shape {s : Str} (h : is_nt (replace_backslashes s) = true) :
    ∃ a t, s = a :: ':' :: t ∧ a.isAlpha = true := by
  obtain ⟨a, t, heq, ha⟩ := (is_nt_iff _).mp h
  rcases s with _ | ⟨x, _ | ⟨y, u⟩⟩
  · exact absurd heq (by simp [replace_backslashes])
  · rw [replace_backslashes] at heq
    simp at heq
  · have heq2 : (if x = '\\' then '/' else x) ::
        (if y = '\\' then '/' else y) ::
        List.map (fun c => if c = '\\' then '/' else c) u = a :: ':' :: t := heq
    have hx : (if x = '\\' then '/' else x) = a := (List.cons_eq_cons.mp heq2).1
    have hy : (if y = '\\' then '/' else y) = ':' :=
      (List.cons_eq_cons.mp (List.cons_eq_cons.mp heq2).2).1
    have hxa : x = a := by
      by_cases hxb : x = '\\'
      · rw [if_pos hxb] at hx
        rw [← hx] at ha
        exact absurd ha (by decide)
      · rwa [if_neg hxb] at hx
    have hyc : y = ':' := by
      by_cases hyb : y = '\\'
      · rw [if_pos hyb] at hy
        exact absurd hy (by decide)
      · rwa [if_neg hyb] at hy
    exact ⟨a, u, by rw [hxa, hyc], ha⟩

theorem render_nt_head {a : Char} {t : Str} (ha : a.isAlpha = true) :
    ∃ u, posixRender (posixParse (a :: ':' :: t)) = a :: ':' :: u := by
  obtain ⟨h1, r1, ht, hct⟩ :=
    splitAllP_cons_of_not_sep (p := fun c => c = '/') ':' t (by simp)
  obtain ⟨h2, r2, ht2, hct2⟩ :=
    splitAllP_cons_of_not_sep (p := fun c => c = '/') a (':' :: t)
      (by simp [alpha_ne_slash ha])
  rw [hct] at ht2
  obtain ⟨hh2, hr2⟩ := List.cons_eq_cons.mp ht2
  have hsegs : posixSegsOf (a :: ':' :: t) = (a :: ':' :: h1) :: filterSegs r1 := by
    rw [posixSegsOf, hct2, ← hh2, ← hr2]
    exact filterSegs_cons_keep (by simp) (by simp)
  have hroot : rootCountOf (a :: ':' :: t) = 0 := by
    have hl : leadSlashes (a :: ':' :: t) = 0 := by
      simp only [leadSlashes, if_neg (alpha_ne_slash ha)]
    rw [rootCountOf, hl]
    simp
  rw [posixParse, hroot, hsegs, posixRender, if_neg (by simp)]
  rcases hF : filterSegs r1 with _ | ⟨b, rr⟩
  · exact ⟨h1, rfl⟩
  · exact ⟨h1 ++ '/' :: joinSep '/' (b :: rr), rfl⟩

theorem is_nt_render {s a : _} {t : Str} (hs : s = a :: ':' :: t)
    (ha : a.isAlpha = true) :
    is_nt (posixRender (posixParse s)) = true := by
  have hru : ∃ u, posixRender (posixParse s) = a :: ':' :: u := by
    rw [hs]
    exact render_nt_head ha
  obtain ⟨u, hu⟩ := hru
  rw [hu]
  simp [is_nt, ha]

theorem wslOutput_nt {s : Str}
    (hgate : is_mnt (replace_backslashes s) = true ∨
      is_nt (replace_backslashes s) = true)
    (hn : is_nt (posixRender (posixParse s)) = true) :
    wslOutput Os.posix s =
      .ok (mountStr (((posixRender (posixParse s)).getD 0 ' ').toLower)
        ((winParse (posixRender (posixParse s))).segs)) := by
  have hc : createOn Os.posix s = .ok (ntStateOf (posixRender (posixParse s))) := by
    rw [createOn_eq_init hgate]
    exact init_views_nt hn
  rw [wslOutput_of_create hc]
  obtain ⟨a, u, heq, ha⟩ := (is_nt_iff _).mp hn
  rw [heq, wsl_path_nt ha, winParse_nt]
  rfl

theorem winOutput_nt {s : Str}
    (hgate : is_mnt (replace_backslashes s) = true ∨
      is_nt (replace_backslashes s) = true)
    (hn : is_nt (posixRender (posixParse s)) = true) :
    winOutput Os.posix s =
      .ok (winRender (winParse (posixRender (posixParse s)))) := by
  have hc : createOn Os.posix s = .ok (ntStateOf (posixRender (posixParse s))) := by
    rw [createOn_eq_init hgate]
    exact init_views_nt hn
  rw [winOutput_of_create hc, win_path_nt]
  rfl

theorem create_mountStr {l : Char} {S : List Str} (hl : l.isAlpha = true)
    (hS : goodSegs S) (hbs : ∀ sg ∈ S, ∀ c ∈ sg, c ≠ '\\') :
    createOn Os.posix (mountStr l S) = .ok (mkMState l S) := by
  have hnb : ∀ c ∈ mountStr l S, c ≠ '\\' := by
    intro c hcm
    rcases mem_mountStr hcm with h1 | h2 | h3 | ⟨sg, hsg, hcsg⟩
    · intro hcc
      subst hcc
      exact absurd h1 (by decide)
    · subst h2
      exact alpha_ne_bslash hl
    · subst h3
      decide
    · exact hbs sg hsg c hcsg
  have hrepl : replace_backslashes (mountStr l S) = mountStr l S :=
    replace_backslashes_id hnb
  have hgate : is_mnt (replace_backslashes (mountStr l S)) = true ∨
      is_nt (replace_backslashes (mountStr l S)) = true := by
    refine Or.inl ?_
    rw [hrepl]
    exact is_mnt_mountStr hl
  rw [createOn_eq_init hgate]
  show init_views (posixRender (posixParse (mountStr l S))) = _
  rw [posixParse_mountStr hl hS,
    show posixRender ⟨1, ("mnt").toList :: [l] :: S⟩ = mountStr l S from rfl]
  exact init_views_mountStr hl hS

theorem win_path_mkM_formula {l : Char} {S : List Str} (hl : l.isAlpha = true)
    (hS : goodSegs S) (hbs : ∀ sg ∈ S, ∀ c ∈ sg, c ≠ '\\')
    (hcolon : ∀ sg ∈ S, secondIsColon sg = false) :
    (win_path (mkMState l S)).map Prod.fst =
      .ok (l.toUpper :: ':' :: '\\' :: joinSep '\\' S) := by
  have hgoodwin : ∀ sg ∈ S, sg ≠ [] ∧ sg ≠ ['.'] ∧
      (∀ c ∈ sg, isWinSep c = false) ∧ secondIsColon sg = false := by
    intro sg hsg
    obtain ⟨g1, g2, g3⟩ := goodWin_of_good_noBs hS hbs sg hsg
    exact ⟨g1, g2, g3, hcolon sg hsg⟩
  rw [win_path_mkM, winOfComps_plainSegs hgoodwin, winRender_drive_root,
    toUpper_toLower hl]
  rfl

/-! ### Appending a segment to each family -/

theorem splitAllP_sep_append {p : Char → Bool} {sep : Char} (hs : p sep = true) :
    ∀ x t : Str, splitAllP p (x ++ sep :: t) = splitAllP p x ++ splitAllP p t := by
  intro x t
  induction x with
  | nil =>
    show splitAllP p (sep :: t) = splitAllP p [] ++ splitAllP p t
    rw [splitAllP_cons_of_sep hs]
    rfl
  | cons c x2 ih =>
    by_cases hc : p c = true
    · show splitAllP p (c :: (x2 ++ sep :: t)) = splitAllP p (c :: x2) ++ _
      rw [splitAllP_cons_of_sep hc, splitAllP_cons_of_sep hc, ih]
      rfl
    · have hc2 : p c = false := by simpa using hc
      obtain ⟨h1, r1, hx2, hcx2⟩ := splitAllP_cons_of_not_sep c x2 hc2
      obtain ⟨h2, r2, hu, hcu⟩ :=
        splitAllP_cons_of_not_sep c (x2 ++ sep :: t) hc2
      rw [ih, hx2, List.cons_append] at hu
      obtain ⟨hh, hr⟩ := List.cons_eq_cons.mp hu
      show splitAllP p (c :: (x2 ++ sep :: t)) =
        splitAllP p (c :: x2) ++ splitAllP p t
      rw [hcu, hcx2, ← hh, ← hr, List.cons_append]

theorem filterSegs_append (X Y : List Str) :
    filterSegs (X ++ Y) = filterSegs X ++ filterSegs Y := by
  rw [filterSegs, filterSegs, filterSegs, List.filter_append]

theorem winSegsOf_append_sep (x t : Str) :
    winSegsOf (x ++ '/' :: t) = winSegsOf x ++ winSegsOf t := by
  rw [winSegsOf, winSegsOf, winSegsOf,
    splitAllP_sep_append (show isWinSep '/' = true from rfl) x t,
    filterSegs_append]

theorem winSegsOf_plain {seg : Str} (hp : plainSeg seg) : winSegsOf seg = [seg] := by
  obtain ⟨h1, h2, h3⟩ := hp
  rw [winSegsOf, splitAllP_all_false (fun c hc => by
      rw [isWinSep]
      simp [(h3 c hc).1, (h3 c hc).2.1]),
    filterSegs_cons_keep h1 h2]
  rfl

theorem ntTail_append (h : Str) (F : List Str) (seg : Str) :
    ntTail h (F ++ [seg]) = ntTail h F ++ '/' :: seg := by
  rw [ntTail, ntTail, if_neg (by simp)]
  rcases F with _ | ⟨b, r⟩
  · rw [if_pos rfl]
    simp [joinSep]
  · rw [if_neg (by simp), joinSep_append_singleton, if_neg (by simp)]
    simp

theorem winRender_ntdrive (a : Char) (rb : Bool) (W : List Str) :
    winRender ⟨[a, ':'], rb, W⟩ =
      a :: ':' :: ((if rb then ['\\'] else []) ++ joinSep '\\' W) := by
  rw [winRender, if_neg (by simp)]
  rfl

theorem win_append_formula_noroot {a : Char} {W : List Str} {seg : Str}
    (hW : ∀ sg ∈ W, sg ≠ [] ∧ ∀ c ∈ sg, isWinSep c = false) (hne : W ≠ []) :
    a :: ':' :: joinSep '\\' (W ++ [seg]) =
      (if (a :: ':' :: joinSep '\\' W).getLast? = some '\\'
       then (a :: ':' :: joinSep '\\' W) ++ seg
       else (a :: ':' :: joinSep '\\' W) ++ '\\' :: seg) := by
  obtain ⟨c, hc1, hc2⟩ := getLast?_joinSep hW hne
  have hlast : (a :: ':' :: joinSep '\\' W).getLast? = some c := by
    rw [show a :: ':' :: joinSep '\\' W = [a, ':'] ++ joinSep '\\' W from rfl,
      List.getLast?_append_of_ne_nil _
        (joinSep_ne_nil hne fun sg hsg => (hW sg hsg).1), hc1]
  rw [hlast, if_neg (by
    intro hcon
    have hcc : c = '\\' := by injection hcon
    rw [hcc] at hc2
    simp [isWinSep] at hc2)]
  rw [joinSep_append_singleton, if_neg hne]
  simp

theorem winSegsOf_bslash_join {W : List Str}
    (hW : ∀ sg ∈ W, sg ≠ [] ∧ sg ≠ ['.'] ∧ ∀ c ∈ sg, isWinSep c = false) :
    winSegsOf ('\\' :: joinSep '\\' W) = W := by
  rcases W with _ | ⟨b, W2⟩
  · rfl
  · rw [winSegsOf, splitAllP_cons_of_sep (show isWinSep '\\' = true from rfl),
      filterSegs_nil_cons,
      splitAllP_joinSep (show isWinSep '\\' = true from rfl) (b :: W2) (by simp)
        (fun x hx c hc => (hW x hx).2.2 c hc)]
    exact filterSegs_eq_self fun x hx => ⟨(hW x hx).1, (hW x hx).2.1⟩

/-! ### Host independence of the discarded normalization -/

theorem createOn_host_agree {s : Str}
    (h : winAsPosix (winParse s) = posixRender (posixParse s)) :
    createOn Os.nt s = createOn Os.posix s := by
  rw [createOn, createOn,
    show host_as_posix Os.nt s = winAsPosix (winParse s) from rfl,
    show host_as_posix Os.posix s = posixRender (posixParse s) from rfl, h]
  by_cases hm : is_mnt (replace_backslashes s) = true
  · obtain ⟨v1, hv1⟩ := @normalize_ok Os.nt _ (Or.inl hm)
    obtain ⟨v2, hv2⟩ := @normalize_ok Os.posix _ (Or.inl hm)
    rw [hv1, hv2]
    rfl
  · by_cases hn : is_nt (replace_backslashes s) = true
    · obtain ⟨v1, hv1⟩ := @normalize_ok Os.nt _ (Or.inr hn)
      obtain ⟨v2, hv2⟩ := @normalize_ok Os.posix _ (Or.inr hn)
      rw [hv1, hv2]
      rfl
    · rw [normalize_unsupported (by simpa using hm) (by simpa using hn),
        normalize_unsupported (by simpa using hm) (by simpa using hn)]

theorem winParse_nt_root_cons (a c : Char) (u : Str) :
    winParse (a :: ':' :: c :: u) =
      ⟨[a, ':'], isWinSep c, winSegsOf (c :: u)⟩ := rfl

theorem winRender_drive_noroot (d : Char) (S : List Str) :
    winRender ⟨[d, ':'], false, S⟩ = d :: ':' :: joinSep '\\' S := by
  rw [winRender, if_neg (by simp)]
  rfl

/-! ### Claim theorems -/

/-- C1 (counterexample): the input `\mnt\c\foo` matches the WSL-mount rule on
the backslash-normalized string, yet construction fails: the normalized
string is dropped by `__init__`, the parent keeps the raw `\mnt\c\foo`, and
`_init_views` rejects its `as_posix()` form.  This refutes the claim that
construction succeeds whenever one of the two rules matches. -/
theorem C1_counterexample :
    is_mnt (replace_backslashes (("\\mnt\\c\\foo").toList)) = true ∧
    createOn Os.posix (("\\mnt\\c\\foo").toList) = .error msg_init_views := by
  decide

/-- C1 (amended): on the POSIX host, construction succeeds iff the
backslash-normalized input matches one of the two rules (the
`_normalize_path` gate) AND the `as_posix()` of the parent built from the
RAW input is itself classified by `_init_views` (Windows-drive checked
first, then mount). The two checks can disagree because the normalized
string never reaches the parent. -/
theorem C1_create_classification : ∀ s : Str,
    isOkE (createOn Os.posix s) =
      ((is_mnt (replace_backslashes s) || is_nt (replace_backslashes s)) &&
        (is_nt (posixRender (posixParse s)) ||
          is_mnt (posixRender (posixParse s)))) := by
  intro s
  by_cases hg : is_mnt (replace_backslashes s) = true ∨
      is_nt (replace_backslashes s) = true
  · have hgb : (is_mnt (replace_backslashes s) ||
        is_nt (replace_backslashes s)) = true := by
      rcases hg with h | h
      · rw [h]
        rfl
      · rw [h, Bool.or_true]
    rw [createOn_eq_init hg, hgb, Bool.true_and]
    show isOkE (init_views (posixRender (posixParse s))) = _
    by_cases hn : is_nt (posixRender (posixParse s)) = true
    · rw [init_views_nt hn, hn, Bool.true_or]
      rfl
    · have hn2 : is_nt (posixRender (posixParse s)) = false := by simpa using hn
      by_cases hm : is_mnt (posixRender (posixParse s)) = true
      · rw [init_views_mnt hn2 hm, hn2, hm, Bool.false_or]
        rfl
      · have hm2 : is_mnt (posixRender (posixParse s)) = false := by
          simpa using hm
        rw [init_views_err hn2 hm2, hn2, hm2]
        rfl
  · push_neg at hg
    have h1 : is_mnt (replace_backslashes s) = false := by simpa using hg.1
    have h2 : is_nt (replace_backslashes s) = false := by simpa using hg.2
    rw [create_unsupported h1 h2, h1, h2]
    rfl

/-- C2: for every input accepted under the Windows-drive rule, construction
succeeds on the POSIX host and `wsl_path` lazily derives (via
`_ensure_wsl_view`) `/mnt/` + the lowercased drive letter + the path
segments after the drive anchor of the cached Windows view, joined
with `/`. -/
theorem C2_windows_input_mount_form : ∀ s : Str,
    is_nt (replace_backslashes s) = true →
    wslOutput Os.posix s =
      .ok (mountStr (((posixRender (posixParse s)).getD 0 ' ').toLower)
        ((winParse (posixRender (posixParse s))).segs)) := by
  intro s hnt
  obtain ⟨a, t, hs, ha⟩ := nt_raw_shape hnt
  exact wslOutput_nt (Or.inr hnt) (is_nt_render hs ha)

/-- C2 (witness): the theorem evaluated on the claim's concrete scenario
`D:\.wor\test.txt`, giving `/mnt/d/.wor/test.txt`. -/
theorem C2_witness :
    wslOutput Os.posix (("D:\\.wor\\test.txt").toList) =
      .ok (("/mnt/d/.wor/test.txt").toList) := by
  have h := C2_windows_input_mount_form (("D:\\.wor\\test.txt").toList)
    (by decide)
  rw [h]
  decide

/-- C3 (counterexample): for the mount input `/mnt/c/a:b` the claimed
Windows rendering is `C:\a:b`, but `PureWindowsPath('C:\\', 'a:b')` lets
the drive-carrying segment `a:b` reset the path, so `win_path` returns
`a:b`; the claim as stated is false. -/
theorem C3_counterexample :
    winOutput Os.posix (("/mnt/c/a:b").toList) = .ok (("a:b").toList) ∧
    (("a:b").toList : Str) ≠ ("C:\\a:b").toList := by decide

/-- C3 (amended): for every input that passes the `_normalize_path` gate and
whose raw `as_posix()` form is classified as a mount path, with post-drive
segments free of backslashes and of drive-like `x:` prefixes, `win_path`
returns the uppercased drive letter + `:\` + the remaining segments joined
with `\` (including the bare `/mnt/c` → `C:\` edge); and symmetrically the
bare Windows input `C:\` converts to mount path `/mnt/c`. -/
theorem C3_mount_input_windows_form :
    (∀ s : Str,
      (is_mnt (replace_backslashes s) || is_nt (replace_backslashes s)) = true →
      is_nt (posixRender (posixParse s)) = false →
      is_mnt (posixRender (posixParse s)) = true →
      (∀ sg ∈ (posixSegsOf s).drop 2,
        secondIsColon sg = false ∧ ∀ c ∈ sg, c ≠ '\\') →
      winOutput Os.posix s =
        .ok (((posixRender (posixParse s)).getD 5 ' ').toUpper :: ':' :: '\\' ::
          joinSep '\\' ((posixSegsOf s).drop 2))) ∧
    wslOutput Os.posix (("C:\\").toList) = .ok (("/mnt/c").toList) := by
  constructor
  · intro s hg hn hm hseg
    have hgate : is_mnt (replace_backslashes s) = true ∨
        is_nt (replace_backslashes s) = true := by
      have hg2 := hg
      rw [Bool.or_eq_true] at hg2
      exact hg2
    obtain ⟨l, ST, hl, hST, hps, hget, hq⟩ :=
      mnt_render_shape (q := posixParse s) (rootCountOf_le_two s)
        posixSegsOf_good hm
    have hsegseq : posixSegsOf s = ("mnt").toList :: [l] :: ST :=
      congrArg PosixParts.segs hq
    have hdrop : (posixSegsOf s).drop 2 = ST := by
      rw [hsegseq]
      rfl
    have hcre : createOn Os.posix s = .ok (mkMState l ST) := by
      rw [createOn_eq_init hgate]
      show init_views (posixRender (posixParse s)) = _
      rw [init_views_mnt hn hm, hps, mntStateOf_mountStr hl hST]
    have hcolon : ∀ sg ∈ ST, secondIsColon sg = false := by
      intro sg hsg
      refine (hseg sg ?_).1
      rw [hdrop]
      exact hsg
    have hbs : ∀ sg ∈ ST, ∀ c ∈ sg, c ≠ '\\' := by
      intro sg hsg
      refine (hseg sg ?_).2
      rw [hdrop]
      exact hsg
    rw [hget, hdrop, winOutput_of_create hcre,
      win_path_mkM_formula hl hST hbs hcolon]
  · decide

/-- C3 (witness): the amended theorem evaluated on `/mnt/c/foo`, giving
`C:\foo`. -/
theorem C3_witness :
    winOutput Os.posix (("/mnt/c/foo").toList) = .ok (("C:\\foo").toList) := by
  have h := C3_mount_input_windows_form.1 (("/mnt/c/foo").toList)
    (by decide) (by decide) (by decide) (by decide)
  rw [h]
  decide

/-- C5 (counterexample): join is not total on valid instances: a valid
instance joined with the rooted segment `/etc` raises the
`NotImplementedError` of `_init_views` (the joined POSIX path `/etc` leaves
the supported families), refuting the claim that the join operation never
fails. -/
theorem C5_counterexample :
    isOkE (createOn Os.posix (("/mnt/c/foo").toList)) = true ∧
    (createOn Os.posix (("/mnt/c/foo").toList)).bind
      (fun st => truediv st (("/etc").toList)) = .error msg_init_views := by
  decide

/-- C5 (amended): on every reachable instance both accessors succeed (the
`RuntimeError` guards and the not-under-`/mnt` branch are unreachable), and
join succeeds for every plain segment (non-empty, not `.`, free of `/`, `\`
and `:`); join can still fail for separator-bearing segments. -/
theorem C5_accessors_total : ∀ st : WState, Reachable st →
    isOkE (wsl_path st) = true ∧ isOkE (win_path st) = true ∧
    ∀ seg, plainSeg seg → isOkE (truediv st seg) = true := by
  intro st h
  rcases reachable_canon h with ⟨l, S, hl, hS, hor⟩ | ⟨a, h2, F, ha, hh, hF, hor⟩
  · refine ⟨?_, ?_, ?_⟩
    · rcases hor with rfl | rfl
      · rw [wsl_path_mkM]
        rfl
      · rw [wsl_path_mkF]
        rfl
    · rcases hor with rfl | rfl
      · rw [win_path_mkM]
        rfl
      · rw [win_path_mkF]
        rfl
    · intro seg hp
      rcases hor with rfl | rfl
      · rw [truediv_plain hl hS hp]
        rfl
      · rw [truediv_pathStr_only
          (show (mkFState l S).pathStr = (mkMState l S).pathStr from rfl),
          truediv_plain hl hS hp]
        rfl
  · refine ⟨?_, ?_, ?_⟩
    · rcases hor with rfl | rfl
      · rw [wsl_path_ntA ha]
        rfl
      · rw [wsl_path_ntCached]
        rfl
    · rcases hor with rfl | rfl
      · rw [win_path_nt]
        rfl
      · rw [win_path_ntCached]
        rfl
    · intro seg hp
      rcases hor with rfl | rfl
      · rw [truediv_pN ha hh hF hp]
        rfl
      · rw [truediv_pathStr_only
          (show (ntCachedOf a h2 F).pathStr =
            (ntStateOf (pN a h2 F)).pathStr from rfl),
          truediv_pN ha hh hF hp]
        rfl

/-- C5 (witness): the amended theorem evaluated on the instance freshly
constructed from `/mnt/c/foo` and the plain segment `x`. -/
theorem C5_witness :
    isOkE (wsl_path (mkMState 'c' [("foo").toList])) = true ∧
    isOkE (win_path (mkMState 'c' [("foo").toList])) = true ∧
    isOkE (truediv (mkMState 'c' [("foo").toList]) (("x").toList)) = true := by
  have h := C5_accessors_total (mkMState 'c' [("foo").toList])
    (Reachable.create (("/mnt/c/foo").toList) _ (by decide))
  exact ⟨h.1, h.2.1, h.2.2 (("x").toList) (by decide)⟩

/-- C4 (counterexample): joining the drive-carrying segment `a:b` onto the
valid parent `/mnt/c/foo` yields the Windows path `a:b` — the segment resets
the derived `PureWindowsPath` — not the parent path with the segment
appended (`C:\foo\a:b`), refuting the claim for arbitrary segment strings. -/
theorem C4_counterexample :
    joinWinOutput (("/mnt/c/foo").toList) (("a:b").toList) =
      .ok (("a:b").toList) ∧
    (("a:b").toList : Str) ≠ ("C:\\foo\\a:b").toList := by decide

/-- C4 (amended): for every validly constructed parent and plain segment
(non-empty, not `.`, free of `/`, `\` and `:`), the joined instance's mount
path is the parent's mount path with `/` + segment appended; and its
Windows path is the parent's Windows path with `\` + segment appended
(no extra separator after a bare `X:\`), provided the parent's mount-view
segments after the anchor are benign and the parent's Windows view is not
the degenerate root-less empty form. -/
theorem C4_join_appends : ∀ (s seg : Str) (st : WState),
    createOn Os.posix s = .ok st → plainSeg seg →
    joinWslOutput s seg = (wslOutput Os.posix s).map (fun m => m ++ '/' :: seg) ∧
    ((∀ v, st.wslView = some v → ∀ sg ∈ v.segs.drop 2,
        secondIsColon sg = false ∧ ∀ c ∈ sg, c ≠ '\\') →
     (∀ w, st.winView = some w → w.root = true ∨ w.segs ≠ []) →
     joinWinOutput s seg = (winOutput Os.posix s).map
       (fun w => if w.getLast? = some '\\' then w ++ seg else w ++ '\\' :: seg)) := by
  intro s seg st hc hp
  have hgate := create_posix_gate hc
  rcases create_posix_cases hc with ⟨hn, hst⟩ | ⟨hn, hm, hst⟩
  · -- Windows-classified parent
    obtain ⟨a, h2, F, ha, hh, hF, hpn, _⟩ :=
      nt_render_shape (q := posixParse s) (rootCountOf_le_two s)
        posixSegsOf_good hn
    rw [hpn] at hst
    subst hst
    have htd := truediv_pN ha hh hF hp
    constructor
    · rw [joinWslOutput_eq hc htd, wsl_path_ntA ha,
        wslOutput_of_create hc, wsl_path_ntA ha, ntTail_append,
        winSegsOf_append_sep, winSegsOf_plain hp, mountStr_append]
      rfl
    · intro _ hroothyp
      have hru := hroothyp (winParse (pN a h2 F)) rfl
      rw [joinWinOutput_eq hc htd, win_path_nt,
        winOutput_of_create hc, win_path_nt]
      refine Eq.trans (by rfl) (Eq.trans (congrArg Except.ok ?_) (by rfl))
      rcases hu : ntTail h2 F with _ | ⟨c, u2⟩
      · rw [pN_eq, winParse_nt, hu] at hru
        rcases hru with hr1 | hr2
        · exact absurd (show false = true from hr1) Bool.false_ne_true
        · exact absurd rfl hr2
      · have hchild : ntTail h2 (F ++ [seg]) = c :: (u2 ++ '/' :: seg) := by
          rw [ntTail_append, hu]
          rfl
        rw [pN_eq a h2 (F ++ [seg]), hchild, winParse_nt_root_cons,
          pN_eq a h2 F, hu, winParse_nt_root_cons]
        have hsegs2 : winSegsOf (c :: (u2 ++ '/' :: seg)) =
            winSegsOf (c :: u2) ++ [seg] := by
          rw [show c :: (u2 ++ '/' :: seg) = (c :: u2) ++ '/' :: seg from rfl,
            winSegsOf_append_sep, winSegsOf_plain hp]
        rw [hsegs2]
        by_cases hwc : isWinSep c = true
        · rw [hwc, winRender_drive_root, winRender_drive_root]
          exact win_append_formula fun sg hsg =>
            ⟨(winSegsOf_good sg hsg).1, (winSegsOf_good sg hsg).2.2⟩
        · have hwc2 : isWinSep c = false := by simpa using hwc
          have hne : winSegsOf (c :: u2) ≠ [] := by
            rw [pN_eq, winParse_nt, hu] at hru
            rcases hru with hr1 | hr2
            · exact absurd (show isWinSep c = true from hr1) hwc
            · exact hr2
          rw [hwc2, winRender_drive_noroot, winRender_drive_noroot]
          exact win_append_formula_noroot (fun sg hsg =>
            ⟨(winSegsOf_good sg hsg).1, (winSegsOf_good sg hsg).2.2⟩) hne
  · -- mount-classified parent
    obtain ⟨l, ST, hl, hST, hps, hget, hq⟩ :=
      mnt_render_shape (q := posixParse s) (rootCountOf_le_two s)
        posixSegsOf_good hm
    rw [hps, mntStateOf_mountStr hl hST] at hst
    subst hst
    have htd := truediv_plain hl hST hp
    constructor
    · rw [joinWslOutput_eq hc htd, wsl_path_mkM, wslOutput_of_create hc,
        wsl_path_mkM, mountStr_append]
      rfl
    · intro hv _
      have hcond := hv ⟨1, ("mnt").toList :: [l] :: ST⟩ rfl
      have hdropv : (("mnt").toList :: [l] :: ST).drop 2 = ST := rfl
      rw [hdropv] at hcond
      have hcolon : ∀ sg ∈ ST, secondIsColon sg = false :=
        fun sg hsg => (hcond sg hsg).1
      have hbs : ∀ sg ∈ ST, ∀ c ∈ sg, c ≠ '\\' :=
        fun sg hsg => (hcond sg hsg).2
      have hST2 : goodSegs (ST ++ [seg]) := by
        intro t ht
        rcases List.mem_append.mp ht with h1 | h2
        · exact hST t h1
        · rcases List.mem_singleton.mp h2 with rfl
          exact goodSeg_of_plain hp
      have hbs2 : ∀ sg ∈ ST ++ [seg], ∀ c ∈ sg, c ≠ '\\' := by
        intro sg hsg
        rcases List.mem_append.mp hsg with h1 | h2
        · exact hbs sg h1
        · rcases List.mem_singleton.mp h2 with rfl
          exact fun c hcm => (hp.2.2 c hcm).2.1
      have hcolon2 : ∀ sg ∈ ST ++ [seg], secondIsColon sg = false := by
        intro sg hsg
        rcases List.mem_append.mp hsg with h1 | h2
        · exact hcolon sg h1
        · rcases List.mem_singleton.mp h2 with rfl
          exact secondIsColon_of_no_colon (fun c hcm => (hp.2.2 c hcm).2.2)
      rw [joinWinOutput_eq hc htd, win_path_mkM_formula hl hST2 hbs2 hcolon2,
        winOutput_of_create hc, win_path_mkM_formula hl hST hbs hcolon,
        win_append_formula (fun sg hsg =>
          ⟨(hST sg hsg).1, fun c hcm => by
            rw [isWinSep]
            simp [(hST sg hsg).2.2 c hcm, hbs sg hsg c hcm]⟩)]
      rfl

/-- C4 (witness): the amended theorem evaluated on the claim's two concrete
scenarios: `C:\foo` joined with `test.txt` and `/mnt/c/foo` joined with
`test.txt` both give `/mnt/c/foo/test.txt` and `C:\foo\test.txt`. -/
theorem C4_witness :
    joinWslOutput (("C:\\foo").toList) (("test.txt").toList) =
      .ok (("/mnt/c/foo/test.txt").toList) ∧
    joinWinOutput (("C:\\foo").toList) (("test.txt").toList) =
      .ok (("C:\\foo\\test.txt").toList) ∧
    joinWslOutput (("/mnt/c/foo").toList) (("test.txt").toList) =
      .ok (("/mnt/c/foo/test.txt").toList) ∧
    joinWinOutput (("/mnt/c/foo").toList) (("test.txt").toList) =
      .ok (("C:\\foo\\test.txt").toList) := by
  have h1 := C4_join_appends (("C:\\foo").toList) (("test.txt").toList)
    (ntStateOf (("C:\\foo").toList)) (by decide) (by decide)
  have h2 := C4_join_appends (("/mnt/c/foo").toList) (("test.txt").toList)
    (mntStateOf (("/mnt/c/foo").toList)) (by decide) (by decide)
  refine ⟨?_, ?_, ?_, ?_⟩
  · rw [h1.1]
    decide
  · rw [h1.2 (by intro v hv; exact Option.noConfusion hv)
      (by intro w hw; cases hw; decide)]
    decide
  · rw [h2.1]
    decide
  · rw [h2.2 (by intro v hv; cases hv; decide)
      (by intro w hw; exact Option.noConfusion hw)]
    decide

/-- C6 (counterexample): for the accepted Windows input `C:\a:b` the round
trip through the mount form returns `a:b` (the colon-bearing segment resets
the re-derived `PureWindowsPath`), which differs both from the canonical
form of the input and from the `win_path` of the original instance
(`C:\a:b`, served from the directly cached view). -/
theorem C6_counterexample :
    (wslOutput Os.posix (("C:\\a:b").toList)).bind
      (fun m => winOutput Os.posix m) = .ok (("a:b").toList) ∧
    winOutput Os.posix (("C:\\a:b").toList) = .ok (("C:\\a:b").toList) ∧
    (("a:b").toList : Str) ≠ ("C:\\a:b").toList := by decide

/-- C6 (amended): for every accepted Windows-drive input whose windows-view
segments carry no drive-like `x:` prefix, the round trip through the mount
form yields the rooted, uppercase-drive canonicalization of the input (not
necessarily the input itself, nor the instance's own cached `win_path`);
and for every mount-classified input with benign post-drive segments, the
round trip through the Windows form yields the canonical lowercase-drive
mount form. -/
theorem C6_roundtrip :
    (∀ s : Str, is_nt (replace_backslashes s) = true →
      (∀ sg ∈ (winParse (posixRender (posixParse s))).segs,
        secondIsColon sg = false) →
      (wslOutput Os.posix s).bind (fun m => winOutput Os.posix m) =
        .ok (((posixRender (posixParse s)).getD 0 ' ').toUpper :: ':' :: '\\' ::
          joinSep '\\' ((winParse (posixRender (posixParse s))).segs))) ∧
    (∀ s : Str,
      (is_mnt (replace_backslashes s) || is_nt (replace_backslashes s)) = true →
      is_nt (posixRender (posixParse s)) = false →
      is_mnt (posixRender (posixParse s)) = true →
      (∀ sg ∈ (posixSegsOf s).drop 2,
        secondIsColon sg = false ∧ ∀ c ∈ sg, c ≠ '\\') →
      (winOutput Os.posix s).bind (fun w => wslOutput Os.posix w) =
        .ok (mountStr (((posixRender (posixParse s)).getD 5 ' ').toLower)
          ((posixSegsOf s).drop 2))) := by
  constructor
  · intro s hnt hcolon
    obtain ⟨a0, t0, hs, ha0⟩ := nt_raw_shape hnt
    have hnp := is_nt_render hs ha0
    rw [wslOutput_nt (Or.inr hnt) hnp]
    show winOutput Os.posix
        (mountStr (((posixRender (posixParse s)).getD 0 ' ').toLower)
          ((winParse (posixRender (posixParse s))).segs)) = _
    obtain ⟨a, u, heq, ha⟩ := (is_nt_iff _).mp hnp
    have hWeq : (winParse (posixRender (posixParse s))).segs = winSegsOf u := by
      rw [heq, winParse_nt]
    have hW : goodSegs ((winParse (posixRender (posixParse s))).segs) := by
      rw [hWeq]
      intro x hx
      obtain ⟨g1, g2, g3⟩ := winSegsOf_good x hx
      exact ⟨g1, g2, fun c hc => (not_winSep_ne (g3 c hc)).1⟩
    have hbsW : ∀ sg ∈ (winParse (posixRender (posixParse s))).segs,
        ∀ c ∈ sg, c ≠ '\\' := by
      rw [hWeq]
      intro sg hsg c hc
      exact (not_winSep_ne ((winSegsOf_good sg hsg).2.2 c hc)).2
    have hla : ((posixRender (posixParse s)).getD 0 ' ').isAlpha = true := by
      have hg0 : (posixRender (posixParse s)).getD 0 ' ' = a := by rw [heq]; rfl
      rw [hg0]
      exact ha
    rw [winOutput_of_create (create_mountStr (isAlpha_toLower hla) hW hbsW),
      win_path_mkM_formula (isAlpha_toLower hla) hW hbsW hcolon,
      toUpper_toLower hla]
  · intro s hg hn hm hseg
    have hgate : is_mnt (replace_backslashes s) = true ∨
        is_nt (replace_backslashes s) = true := by
      have hg2 := hg
      rw [Bool.or_eq_true] at hg2
      exact hg2
    obtain ⟨l, ST, hl, hST, hps, hget, hq⟩ :=
      mnt_render_shape (q := posixParse s) (rootCountOf_le_two s)
        posixSegsOf_good hm
    have hsegseq : posixSegsOf s = ("mnt").toList :: [l] :: ST :=
      congrArg PosixParts.segs hq
    have hdrop : (posixSegsOf s).drop 2 = ST := by
      rw [hsegseq]
      rfl
    have hcre : createOn Os.posix s = .ok (mkMState l ST) := by
      rw [createOn_eq_init hgate]
      show init_views (posixRender (posixParse s)) = _
      rw [init_views_mnt hn hm, hps, mntStateOf_mountStr hl hST]
    have hcolon : ∀ sg ∈ ST, secondIsColon sg = false := by
      intro sg hsg
      refine (hseg sg ?_).1
      rw [hdrop]
      exact hsg
    have hbs : ∀ sg ∈ ST, ∀ c ∈ sg, c ≠ '\\' := by
      intro sg hsg
      refine (hseg sg ?_).2
      rw [hdrop]
      exact hsg
    rw [hget, hdrop, winOutput_of_create hcre,
      win_path_mkM_formula hl hST hbs hcolon]
    show wslOutput Os.posix (l.toUpper :: ':' :: '\\' :: joinSep '\\' ST) =
      .ok (mountStr l.toLower ST)
    have hwgood : goodSeg (l.toUpper :: ':' :: '\\' :: joinSep '\\' ST) := by
      refine ⟨by simp, by simp, ?_⟩
      intro c hc
      rcases List.mem_cons.mp hc with rfl | hc2
      · exact alpha_ne_slash (isAlpha_toUpper hl)
      · rcases List.mem_cons.mp hc2 with rfl | hc3
        · decide
        · rcases List.mem_cons.mp hc3 with rfl | hc4
          · decide
          · rcases mem_joinSep hc4 with rfl | ⟨sg, hsg, hcsg⟩
            · decide
            · exact (hST sg hsg).2.2 c hcsg
    have hpw : posixRender (posixParse (l.toUpper :: ':' :: '\\' ::
        joinSep '\\' ST)) = l.toUpper :: ':' :: '\\' :: joinSep '\\' ST := by
      rw [posixParse_goodSeg hwgood, posixRender, if_neg (by simp)]
      rfl
    have hr2 : replace_backslashes (l.toUpper :: ':' :: '\\' ::
        joinSep '\\' ST) = l.toUpper :: ':' :: '/' :: joinSep '/' ST := by
      simp only [replace_backslashes, List.map_cons]
      rw [if_neg (alpha_ne_bslash (isAlpha_toUpper hl)),
        show List.map (fun c => if c = '\\' then '/' else c)
            (joinSep '\\' ST) = replace_backslashes (joinSep '\\' ST) from rfl,
        replace_joinSep hbs]
      simp
    have hnt2 : is_nt (replace_backslashes (l.toUpper :: ':' :: '\\' ::
        joinSep '\\' ST)) = true := by
      rw [hr2]
      simp [is_nt, isAlpha_toUpper hl]
    have hnp2 : is_nt (posixRender (posixParse (l.toUpper :: ':' :: '\\' ::
        joinSep '\\' ST))) = true := by
      rw [hpw]
      simp [is_nt, isAlpha_toUpper hl]
    rw [wslOutput_nt (Or.inr hnt2) hnp2, hpw,
      show (l.toUpper :: ':' :: '\\' :: joinSep '\\' ST).getD 0 ' ' =
        l.toUpper from rfl,
      toLower_toUpper hl, winParse_nt,
      winSegsOf_bslash_join (goodWin_of_good_noBs hST hbs)]

/-- C6 (witness): the amended round trips evaluated on the claim's concrete
scenarios `D:\.wor\test.txt` (already canonical, so the round trip returns
it unchanged) and `/mnt/d/.wor/test.txt`. -/
theorem C6_witness :
    (wslOutput Os.posix (("D:\\.wor\\test.txt").toList)).bind
      (fun m => winOutput Os.posix m) =
      .ok (("D:\\.wor\\test.txt").toList) ∧
    (winOutput Os.posix (("/mnt/d/.wor/test.txt").toList)).bind
      (fun w => wslOutput Os.posix w) =
      .ok (("/mnt/d/.wor/test.txt").toList) := by
  have h1 := C6_roundtrip.1 (("D:\\.wor\\test.txt").toList)
    (by decide) (by decide)
  have h2 := C6_roundtrip.2 (("/mnt/d/.wor/test.txt").toList)
    (by decide) (by decide) (by decide) (by decide)
  constructor
  · rw [h1]
    decide
  · rw [h2]
    decide

/-- C7 (counterexample): after constructing from `/mnt/c/u:v` and reading
`win_path`, the cached Windows view is `PureWindowsPath('u:v')` — its drive
letter `u` disagrees with the instance `drive_letter` `c`, refuting the
claimed drive-letter agreement between all populated views. -/
theorem C7_counterexample :
    ((createOn Os.posix (("/mnt/c/u:v").toList)).bind win_path).map
      (fun pr => (pr.2.drive_letter, pr.2.winView.map WinParts.drive)) =
      .ok ('c', some (("u:").toList)) ∧
    lowerStr (("u:").toList) ≠ ['c', ':'] := by decide

/-- C7 (amended): every reachable instance whose mount-view segments carry
no drive-like `x:` prefix has at least one view populated, a lowercase
alphabetic `drive_letter`, and both the mount view drive segment and the
Windows view drive agree with it case-insensitively. -/
theorem C7_state_invariants : ∀ st : WState, Reachable st →
    (∀ v, st.wslView = some v → ∀ sg ∈ v.segs, secondIsColon sg = false) →
    (st.wslView.isSome = true ∨ st.winView.isSome = true) ∧
    st.drive_letter.isLower = true ∧ st.drive_letter.isAlpha = true ∧
    (∀ v, st.wslView = some v → lowerStr (v.segs.getD 1 []) = [st.drive_letter]) ∧
    (∀ w, st.winView = some w → lowerStr w.drive = [st.drive_letter, ':']) := by
  intro st h hnd
  rcases reachable_canon h with ⟨l, S, hl, hS, hor⟩ | ⟨a, h2, F, ha, hh, hF, hor⟩
  · have hSnd : ∀ sg ∈ S, secondIsColon sg = false := by
      intro sg hsg
      have hv : st.wslView = some ⟨1, ("mnt").toList :: [l] :: S⟩ := by
        rcases hor with rfl | rfl
        · rfl
        · rfl
      exact hnd _ hv sg (List.mem_cons_of_mem _ (List.mem_cons_of_mem _ hsg))
    have hdl : st.drive_letter = l.toLower := by
      rcases hor with rfl | rfl
      · rfl
      · rfl
    refine ⟨?_, ?_, ?_, ?_, ?_⟩
    · rcases hor with rfl | rfl
      · exact Or.inl rfl
      · exact Or.inl rfl
    · rw [hdl]
      exact isLower_toLower hl
    · rw [hdl]
      exact isAlpha_toLower hl
    · intro v hv
      have hveq : v = ⟨1, ("mnt").toList :: [l] :: S⟩ := by
        rcases hor with rfl | rfl
        · exact (Option.some.inj hv).symm
        · exact (Option.some.inj hv).symm
      rw [hveq, hdl]
      rfl
    · intro w hw
      rcases hor with rfl | rfl
      · exact absurd hw (by simp [mkMState])
      · have hweq : w = winOfComps ((l.toLower.toUpper :: (":\\").toList) :: S) :=
          (Option.some.inj hw).symm
        have hfold : (winOfComps ((l.toLower.toUpper :: (":\\").toList) :: S)).drive =
            [l.toLower.toUpper, ':'] := by
          rw [winOfComps, show winSplitComp (l.toLower.toUpper :: (":\\").toList) =
            ⟨[l.toLower.toUpper, ':'], true, []⟩ from rfl]
          exact foldl_ntCombine_drive hSnd _ (by simp)
        rw [hweq, hfold]
        have hdl2 : (mkFState l S).drive_letter = l.toLower := rfl
        rw [hdl2]
        show [(l.toLower.toUpper).toLower, (':' : Char).toLower] = [l.toLower, ':']
        rw [toLower_toUpper (isAlpha_toLower hl), toLower_toLower]
        rfl
  · have hdl : st.drive_letter = a.toLower := by
      rcases hor with rfl | rfl
      · show ((pN a h2 F).getD 0 ' ').toLower = a.toLower
        rw [pN_eq]
        rfl
      · show ((pN a h2 F).getD 0 ' ').toLower = a.toLower
        rw [pN_eq]
        rfl
    have hwin : st.winView = some (winParse (pN a h2 F)) := by
      rcases hor with rfl | rfl
      · rfl
      · rfl
    refine ⟨Or.inr (by rw [hwin]; rfl), ?_, ?_, ?_, ?_⟩
    · rw [hdl]
      exact isLower_toLower ha
    · rw [hdl]
      exact isAlpha_toLower ha
    · intro v hv
      rcases hor with rfl | rfl
      · exact absurd hv (by simp [ntStateOf])
      · have hveq : v = ⟨1, ("mnt").toList :: [a.toLower] ::
            winSegsOf (ntTail h2 F)⟩ := (Option.some.inj hv).symm
        rw [hveq, hdl]
        show [(a.toLower).toLower] = [a.toLower]
        rw [toLower_toLower]
    · intro w hw
      have hweq : w = winParse (pN a h2 F) := by
        rw [hwin] at hw
        exact (Option.some.inj hw).symm
      rw [hweq, hdl, pN_eq, winParse_nt]
      rfl

/-- C7 (witness): the amended invariant evaluated on the instance freshly
constructed from `/mnt/c/foo`. -/
theorem C7_witness :
    (mkMState 'c' [("foo").toList]).drive_letter.isLower = true ∧
    (mkMState 'c' [("foo").toList]).drive_letter.isAlpha = true := by
  have h := C7_state_invariants (mkMState 'c' [("foo").toList])
    (Reachable.create (("/mnt/c/foo").toList) _ (by decide))
    (by intro v hv; cases hv; decide)
  exact ⟨h.2.1, h.2.2.1⟩

/-- C8 (counterexample): each directly cached view preserves the
constructor input's case: `/mnt/C/foo` yields mount path `/mnt/C/foo` (not
the claimed lowercase `/mnt/c/foo`), and `c:\foo` yields Windows path
`c:\foo` (not the claimed uppercase `C:\foo`). -/
theorem C8_counterexample :
    wslOutput Os.posix (("/mnt/C/foo").toList) = .ok (("/mnt/C/foo").toList) ∧
    (("/mnt/C/foo").toList : Str) ≠ ("/mnt/c/foo").toList ∧
    winOutput Os.posix (("c:\\foo").toList) = .ok (("c:\\foo").toList) ∧
    (("c:\\foo").toList : Str) ≠ ("C:\\foo").toList := by decide

/-- C8 (amended): the stored `drive_letter` is always lowercase; the
*derived* views are case-canonical — for Windows-classified inputs the
derived mount view renders the drive lowercase, and for mount-classified
inputs (with benign segments) the derived Windows view renders the drive
uppercase — but a view cached directly from the constructor input keeps the
input's case. -/
theorem C8_case_rendering : ∀ (s : Str) (st : WState),
    createOn Os.posix s = .ok st →
    st.drive_letter.isLower = true ∧
    (is_nt (posixRender (posixParse s)) = true →
      wslOutput Os.posix s =
        .ok (mountStr st.drive_letter
          ((winParse (posixRender (posixParse s))).segs))) ∧
    (is_nt (posixRender (posixParse s)) = false →
      (∀ sg ∈ (posixSegsOf s).drop 2,
        secondIsColon sg = false ∧ ∀ c ∈ sg, c ≠ '\\') →
      (winOutput Os.posix s).map (fun w => w.take 2) =
        .ok [st.drive_letter.toUpper, ':'] ∧
        (st.drive_letter.toUpper).isUpper = true) := by
  intro s st hc
  have hgate := create_posix_gate hc
  rcases create_posix_cases hc with ⟨hn, hst⟩ | ⟨hn, hm, hst⟩
  · obtain ⟨a, u, heq, ha⟩ := (is_nt_iff _).mp hn
    have hdl : st.drive_letter = a.toLower := by
      rw [hst]
      show ((posixRender (posixParse s)).getD 0 ' ').toLower = a.toLower
      rw [heq]
      rfl
    refine ⟨by rw [hdl]; exact isLower_toLower ha, ?_, ?_⟩
    · intro _
      have hg0 : (posixRender (posixParse s)).getD 0 ' ' = a := by rw [heq]; rfl
      rw [wslOutput_nt hgate hn, hdl, hg0]
    · intro hnf
      rw [hn] at hnf
      exact absurd hnf (by decide)
  · obtain ⟨l, ST, hl, hST, hps, hget, hq⟩ :=
      mnt_render_shape (q := posixParse s) (rootCountOf_le_two s)
        posixSegsOf_good hm
    have hsegseq : posixSegsOf s = ("mnt").toList :: [l] :: ST :=
      congrArg PosixParts.segs hq
    have hdrop : (posixSegsOf s).drop 2 = ST := by
      rw [hsegseq]
      rfl
    have hcre : createOn Os.posix s = .ok (mkMState l ST) := by
      rw [createOn_eq_init hgate]
      show init_views (posixRender (posixParse s)) = _
      rw [init_views_mnt hn hm, hps, mntStateOf_mountStr hl hST]
    have hstM : st = mkMState l ST := by
      rw [hst, hps, mntStateOf_mountStr hl hST]
    have hdl : st.drive_letter = l.toLower := by
      rw [hstM]
      rfl
    refine ⟨by rw [hdl]; exact isLower_toLower hl, ?_, ?_⟩
    · intro hnt
      rw [hnt] at hn
      exact absurd hn (by decide)
    · intro _ hseg
      have hcolon : ∀ sg ∈ ST, secondIsColon sg = false := by
        intro sg hsg
        refine (hseg sg ?_).1
        rw [hdrop]
        exact hsg
      have hbs : ∀ sg ∈ ST, ∀ c ∈ sg, c ≠ '\\' := by
        intro sg hsg
        refine (hseg sg ?_).2
        rw [hdrop]
        exact hsg
      constructor
      · rw [winOutput_of_create hcre, win_path_mkM_formula hl hST hbs hcolon,
          hdl, toUpper_toLower hl]
        rfl
      · rw [hdl]
        exact isUpper_toUpper (isAlpha_toLower hl)

/-- C8 (witness): the amended theorem evaluated on `c:\foo` (lowercase
drive kept in `drive_letter`, derived mount form `/mnt/c/foo`) and on
`/mnt/c/foo` (derived Windows form starting with the uppercase `C:`). -/
theorem C8_witness :
    (ntStateOf (("c:\\foo").toList)).drive_letter.isLower = true ∧
    wslOutput Os.posix (("c:\\foo").toList) = .ok (("/mnt/c/foo").toList) ∧
    (winOutput Os.posix (("/mnt/c/foo").toList)).map (fun w => w.take 2) =
      .ok ['C', ':'] := by
  have h1 := C8_case_rendering (("c:\\foo").toList)
    (ntStateOf (("c:\\foo").toList)) (by decide)
  have h2 := C8_case_rendering (("/mnt/c/foo").toList)
    (mntStateOf (("/mnt/c/foo").toList)) (by decide)
  refine ⟨h1.1, ?_, ?_⟩
  · rw [h1.2.1 (by decide)]
    decide
  · exact ((h2.2.2 (by decide) (by decide)).1).trans (by decide)

/-- C9 (counterexample): the host platform leaks into the outputs through
the parent's flavour parse of the raw input: for `/mnt/c/a\b`, the NT host
parses the backslash as a separator and `wsl_path` returns `/mnt/c/a/b`,
while the POSIX host keeps the backslash inside the segment and returns
`/mnt/c/a\b`. -/
theorem C9_counterexample :
    wslOutput Os.nt (("/mnt/c/a\\b").toList) = .ok (("/mnt/c/a/b").toList) ∧
    wslOutput Os.posix (("/mnt/c/a\\b").toList) =
      .ok (("/mnt/c/a\\b").toList) ∧
    (("/mnt/c/a/b").toList : Str) ≠ ("/mnt/c/a\\b").toList := by decide

/-- C9 (amended): the only host dependence left after `__init__` drops the
normalized string is the parent's flavour parse; whenever the Windows and
POSIX flavours render the raw input to the same `as_posix()` string, both
accessors return identical strings on the NT host and on the POSIX host. -/
theorem C9_platform : ∀ s : Str,
    winAsPosix (winParse s) = posixRender (posixParse s) →
    wslOutput Os.nt s = wslOutput Os.posix s ∧
    winOutput Os.nt s = winOutput Os.posix s := by
  intro s h
  have hc := createOn_host_agree h
  constructor
  · rw [wslOutput, wslOutput, hc]
  · rw [winOutput, winOutput, hc]

/-- C9 (witness): the amended theorem evaluated on `C:/foo`, whose two
flavour parses agree. -/
theorem C9_witness :
    wslOutput Os.nt (("C:/foo").toList) =
      wslOutput Os.posix (("C:/foo").toList) ∧
    winOutput Os.nt (("C:/foo").toList) =
      winOutput Os.posix (("C:/foo").toList) :=
  C9_platform (("C:/foo").toList) (by decide)

set_option maxRecDepth 8192 in
/-- C10 (counterexample): for the rejected input `~/wsl_user_folde` the
raised error carries only the fixed message of `_normalize_path`; the
offending input is not contained in it, refuting the claim that the error
carries the rejected input. -/
theorem C10_counterexample :
    createOn Os.posix (("~/wsl_user_folde").toList) = .error msg_unsupported ∧
    ¬ (("~/wsl_user_folde").toList : Str) <:+: msg_unsupported := by decide

/-- C10 (amended): when neither classification rule matches, construction
fails on either host with the fixed `_normalize_path` diagnostic message
(which does not mention the input). -/
theorem C10_unsupported_error : ∀ (os : Os) (s : Str),
    is_mnt (replace_backslashes s) = false → is_nt (replace_backslashes s) = false →
    createOn os s = .error msg_unsupported :=
  fun _ _ h1 h2 => create_unsupported h1 h2

/-- C10 (witness): the amended theorem evaluated on `~/wsl_user_folde` for
both hosts. -/
theorem C10_witness :
    createOn Os.posix (("~/wsl_user_folde").toList) = .error msg_unsupported ∧
    createOn Os.nt (("~/wsl_user_folde").toList) = .error msg_unsupported :=
  ⟨C10_unsupported_error Os.posix (("~/wsl_user_folde").toList) (by decide) (by decide),
    C10_unsupported_error Os.nt (("~/wsl_user_folde").toList) (by decide) (by decide)⟩

end WslPathlib
